import Mathlib

/-!
Shallow embedding of the `api-store` transactional core (`app/sdk.py`,
with `app/main.py` containing the same logic inline in its route handlers).

The in-memory stores `PRODUCTS`, `WALLETS`, `CARTS`, `ORDERS`, `IDEMPOTENCY`
are Python dicts; they are modelled as insertion-ordered association lists
(`Dict`), with `dget`/`dset`/`ddel` mirroring `d.get`, `d[k] = v`, `del d[k]`.
Each endpoint's logic function becomes a pure function from inputs and a
`StoreState` to a result (`Except HTTPException α`) together with the
post-state; `buy_logic` and `cart_checkout_logic` additionally return the
list of lock acquire/release events they perform on the Lock Registry
(`_get_lock` keys), so that the lock discipline is visible in the model.
`uuid.uuid4().hex` fresh-id generation is modelled by deterministic
fresh-id counters (`pcounter` for product ids, `ocounter` for order ids);
the ids are opaque tokens, so any injective fresh supply is faithful.
-/

namespace ApiStore

/-- An error raised via FastAPI's HTTPException: a status code plus detail. -/
structure HTTPException where
  status_code : Nat
  detail : String
deriving DecidableEq

/-- A Python dict, as an insertion-ordered association list with unique keys
(the operations preserve key uniqueness when it holds initially). -/
abbrev Dict (κ α : Type) := List (κ × α)

/-- `d.get k` — first (unique) binding of `k`, if any. -/
def dget {κ α : Type} [DecidableEq κ] : Dict κ α → κ → Option α
  | [], _ => none
  | (k, v) :: rest, key => if k = key then some v else dget rest key

/-- `d[k] = v` — replace the binding of `k` in place, or append a new one. -/
def dset {κ α : Type} [DecidableEq κ] : Dict κ α → κ → α → Dict κ α
  | [], key, v => [(key, v)]
  | (k, w) :: rest, key, v =>
      if k = key then (k, v) :: rest else (k, w) :: dset rest key v

/-- `del d[k]` — remove the binding of `k` (the first one; keys are unique). -/
def ddel {κ α : Type} [DecidableEq κ] : Dict κ α → κ → Dict κ α
  | [], _ => []
  | (k, w) :: rest, key => if k = key then rest else (k, w) :: ddel rest key

/-- The keys of a dict, in order. -/
def dkeys {κ α : Type} (d : Dict κ α) : List κ := d.map Prod.fst

/-- A catalog product, as built by `_make_product_dict`. -/
structure Product where
  id : String
  name : String
  price_cents : Int
  quantity : Int
  category : String
deriving DecidableEq

/-- Request body of `POST /seller/register` (`ProductIn`). -/
structure ProductIn where
  name : String
  price_cents : Int
  quantity : Int
  category : String
deriving DecidableEq

/-- One line item of an order. -/
structure LineItem where
  product_id : String
  name : String
  quantity : Int
  line_total_cents : Int
deriving DecidableEq

/-- An order record as synthesized by `buy_logic` / `cart_checkout_logic`. -/
structure Order where
  id : Nat
  user_email : String
  items : List LineItem
  total_cents : Int
  status : String
deriving DecidableEq

/-- Request body of `POST /buy` (`BuyRequest`). -/
structure BuyRequest where
  user_email : String
  product_id : String
  quantity : Int
deriving DecidableEq

/-- The full mutable state of the service: the five module-level dicts of
`app/database.py`, plus the two fresh-id counters standing in for `uuid4`. -/
structure StoreState where
  products : Dict String Product
  wallets : Dict String Int
  carts : Dict String (Dict String Int)
  orders : Dict Nat Order
  idem : Dict String Order
  pcounter : Nat
  ocounter : Nat
deriving DecidableEq

/-- The empty initial state (all stores empty, as at process start). -/
def initState : StoreState :=
  { products := [], wallets := [], carts := [], orders := [], idem := [],
    pcounter := 0, ocounter := 0 }

/-- The fresh product id produced by the `c`-th registration (stands in for
`uuid.uuid4().hex`; injective by construction). -/
def pidOf (c : Nat) : String := ⟨List.replicate (c + 1) 'p'⟩

/-- Lock acquire/release events on the Lock Registry, recorded by the
operations that take locks. -/
inductive LockEvent where
  | acquire (key : String)
  | release (key : String)
deriving DecidableEq

/-- `seller_register_logic`: assign a fresh id and store the product. -/
def seller_register_logic (payload : ProductIn) (s : StoreState) :
    (String × Product) × StoreState :=
  let pid := pidOf s.pcounter
  let prod : Product :=
    { id := pid, name := payload.name, price_cents := payload.price_cents,
      quantity := payload.quantity, category := payload.category }
  ((pid, prod),
   { s with products := dset s.products pid prod, pcounter := s.pcounter + 1 })

/-- `wallet_topup_logic`: reject non-positive amounts, else add to the
balance (defaulting to 0) under the wallet lock. -/
def wallet_topup_logic (user_email : String) (amount_cents : Int)
    (s : StoreState) : Except HTTPException (String × Int) × StoreState :=
  if amount_cents ≤ 0 then
    (.error ⟨400, "Amount must be positive"⟩, s)
  else
    let balance := (dget s.wallets user_email).getD 0 + amount_cents
    (.ok (user_email, balance),
     { s with wallets := dset s.wallets user_email balance })

/-- `cart_add_logic`: validate quantity and product existence, then add the
quantity to the user's cart line (creating cart and line as needed). -/
def cart_add_logic (user_email product_id : String) (quantity : Int)
    (s : StoreState) : Except HTTPException (Dict String Int) × StoreState :=
  if quantity ≤ 0 then
    (.error ⟨400, "quantity must be > 0"⟩, s)
  else if (dget s.products product_id).isNone then
    (.error ⟨404, "product not found"⟩, s)
  else
    let cart := (dget s.carts user_email).getD []
    let cart' := dset cart product_id ((dget cart product_id).getD 0 + quantity)
    (.ok cart', { s with carts := dset s.carts user_email cart' })

/-- `cart_remove_logic`: `CARTS.setdefault(user, {})`, then remove the line
entirely (omitted quantity, or quantity ≥ present) or reduce it. -/
def cart_remove_logic (user_email product_id : String) (quantity : Option Int)
    (s : StoreState) : Except HTTPException (Dict String Int) × StoreState :=
  let carts0 := match dget s.carts user_email with
    | none => dset s.carts user_email []
    | some _ => s.carts
  let s0 := { s with carts := carts0 }
  let cart := (dget carts0 user_email).getD []
  match dget cart product_id with
  | none => (.ok cart, s0)
  | some current_qty =>
    match quantity with
    | none =>
        let cart' := ddel cart product_id
        (.ok cart', { s0 with carts := dset carts0 user_email cart' })
    | some q =>
        if q ≤ 0 then
          (.error ⟨400, "quantity must be > 0"⟩, s0)
        else if current_qty ≤ q then
          let cart' := ddel cart product_id
          (.ok cart', { s0 with carts := dset carts0 user_email cart' })
        else
          let cart' := dset cart product_id (current_qty - q)
          (.ok cart', { s0 with carts := dset carts0 user_email cart' })

/-- The raw lock key list of `buy_logic`:
`[f"product:{req.product_id}", f"wallet:{req.user_email}"]`. -/
def buyKeys (req : BuyRequest) : List String :=
  ["product:" ++ req.product_id, "wallet:" ++ req.user_email]

/-- `sorted(keys)` of `buy_logic` — the order locks are acquired in. -/
def buyLockOrder (req : BuyRequest) : List String :=
  List.insertionSort (· ≤ ·) (buyKeys req)

/-- Whether the `Idempotency-Key` header is falsy (`if not idempotency_key`):
absent or the empty string. -/
def tokenMissing : Option String → Bool
  | none => true
  | some t => t = ""

/-- `buy_logic`: idempotency lookup, validation, lock, re-check stock and
funds, commit, release. Returns result, post-state and lock trace. -/
def buy_logic (req : BuyRequest) (idempotency_key : Option String)
    (s : StoreState) :
    Except HTTPException Order × StoreState × List LockEvent :=
  if tokenMissing idempotency_key then
    (.error ⟨400, "Idempotency-Key header required"⟩, s, [])
  else
    let key := idempotency_key.getD ""
    match dget s.idem key with
    | some prev => (.ok prev, s, [])
    | none =>
      if req.quantity ≤ 0 then
        (.error ⟨400, "quantity must be > 0"⟩, s, [])
      else
        match dget s.products req.product_id with
        | none => (.error ⟨404, "product not found"⟩, s, [])
        | some prod =>
          let locks := buyLockOrder req
          let trace := locks.map LockEvent.acquire
            ++ locks.reverse.map LockEvent.release
          if prod.quantity < req.quantity then
            (.error ⟨409, "insufficient_stock"⟩, s, trace)
          else
            let total := prod.price_cents * req.quantity
            let balance := (dget s.wallets req.user_email).getD 0
            if balance < total then
              (.error ⟨402, "insufficient_funds"⟩, s, trace)
            else
              let order : Order :=
                { id := s.ocounter, user_email := req.user_email,
                  items := [{ product_id := req.product_id, name := prod.name,
                              quantity := req.quantity,
                              line_total_cents := total }],
                  total_cents := total, status := "placed" }
              (.ok order,
               { s with
                   products := dset s.products req.product_id
                     { prod with quantity := prod.quantity - req.quantity },
                   wallets := dset s.wallets req.user_email (balance - total),
                   orders := dset s.orders s.ocounter order,
                   idem := dset s.idem key order,
                   ocounter := s.ocounter + 1 },
               trace)

/-- The raw lock key list of `cart_checkout_logic`: one `product:` key per
cart line (in cart order) plus the wallet key. -/
def checkoutKeys (user_email : String) (cart : Dict String Int) : List String :=
  cart.map (fun e => "product:" ++ e.1) ++ ["wallet:" ++ user_email]

/-- `sorted(product_keys + [wallet_key])` of `cart_checkout_logic`. -/
def checkoutLockOrder (user_email : String) (cart : Dict String Int) :
    List String :=
  List.insertionSort (· ≤ ·) (checkoutKeys user_email cart)

/-- The validation loop of `cart_checkout_logic`: check every cart line
(product exists, positive quantity, enough stock) and accumulate the total
and the order line items, without mutating anything. -/
def checkLines (cart : Dict String Int) (products : Dict String Product) :
    Except HTTPException (Int × List LineItem) :=
  match cart with
  | [] => .ok (0, [])
  | (pid, qty) :: rest =>
    match dget products pid with
    | none => .error ⟨404, "product_not_found:" ++ pid⟩
    | some prod =>
      if qty ≤ 0 then .error ⟨400, "invalid quantity in cart"⟩
      else if prod.quantity < qty then
        .error ⟨409, "insufficient_stock:" ++ pid⟩
      else
        match checkLines rest products with
        | .error e => .error e
        | .ok (t, items) =>
            .ok (prod.price_cents * qty + t,
                 { product_id := pid, name := prod.name, quantity := qty,
                   line_total_cents := prod.price_cents * qty } :: items)

/-- The commit loop of `cart_checkout_logic`:
`for pid, qty in cart.items(): PRODUCTS[pid]["quantity"] -= qty`
(every pid is present, having been validated by `checkLines`). -/
def decProducts (cart : Dict String Int) (products : Dict String Product) :
    Dict String Product :=
  match cart with
  | [] => products
  | (pid, qty) :: rest =>
    match dget products pid with
    | some prod =>
        decProducts rest
          (dset products pid { prod with quantity := prod.quantity - qty })
    | none => decProducts rest products

/-- `cart_checkout_logic`: idempotency lookup, empty-cart check, lock all
cart products plus the wallet in sorted order, validate every line, check
funds, commit all lines atomically, clear the cart, release. -/
def cart_checkout_logic (user_email : String) (idempotency_key : Option String)
    (s : StoreState) :
    Except HTTPException Order × StoreState × List LockEvent :=
  if tokenMissing idempotency_key then
    (.error ⟨400, "Idempotency-Key header required"⟩, s, [])
  else
    let key := idempotency_key.getD ""
    match dget s.idem key with
    | some prev => (.ok prev, s, [])
    | none =>
      let cart := (dget s.carts user_email).getD []
      if cart = [] then
        (.error ⟨400, "cart empty"⟩, s, [])
      else
        let locks := checkoutLockOrder user_email cart
        let trace := locks.map LockEvent.acquire
          ++ locks.reverse.map LockEvent.release
        match checkLines cart s.products with
        | .error e => (.error e, s, trace)
        | .ok (total, items) =>
          let balance := (dget s.wallets user_email).getD 0
          if balance < total then
            (.error ⟨402, "insufficient_funds"⟩, s, trace)
          else
            let order : Order :=
              { id := s.ocounter, user_email := user_email, items := items,
                total_cents := total, status := "placed" }
            (.ok order,
             { s with
                 products := decProducts cart s.products,
                 wallets := dset s.wallets user_email (balance - total),
                 orders := dset s.orders s.ocounter order,
                 carts := dset s.carts user_email [],
                 idem := dset s.idem key order,
                 ocounter := s.ocounter + 1 },
             trace)

/-! ### Dictionary lemmas -/

theorem dget_dset_self {κ α : Type} [DecidableEq κ] (d : Dict κ α) (k : κ)
    (v : α) : dget (dset d k v) k = some v := by
  induction d with
  | nil => simp [dset, dget]
  | cons e rest ih =>
      by_cases h : e.1 = k
      · simp [dset, dget, h]
      · simp [dset, dget, h, ih]

theorem dget_dset_ne {κ α : Type} [DecidableEq κ] (d : Dict κ α) (k k' : κ)
    (v : α) (h : k' ≠ k) : dget (dset d k v) k' = dget d k' := by
  have h' : ¬ k = k' := Ne.symm h
  induction d with
  | nil => simp [dset, dget, h']
  | cons e rest ih =>
      by_cases he : e.1 = k
      · simp [dset, dget, he, h']
      · simp [dset, dget, he, ih]

theorem mem_dset {κ α : Type} [DecidableEq κ] {d : Dict κ α} {k : κ} {v : α}
    {e : κ × α} (h : e ∈ dset d k v) : e = (k, v) ∨ e ∈ d := by
  induction d with
  | nil => simpa [dset] using h
  | cons e' rest ih =>
      by_cases he : e'.1 = k
      · rcases (by simpa [dset, he] using h : e = (k, v) ∨ e ∈ rest) with h1 | h1
        · exact .inl h1
        · exact .inr (.tail _ h1)
      · rcases (by simpa [dset, he] using h :
            e = e' ∨ e ∈ dset rest k v) with h1 | h1
        · exact .inr (by rw [h1]; exact .head _)
        · rcases ih h1 with h2 | h2
          · exact .inl h2
          · exact .inr (.tail _ h2)

theorem dget_mem {κ α : Type} [DecidableEq κ] {d : Dict κ α} {k : κ} {v : α}
    (h : dget d k = some v) : (k, v) ∈ d := by
  induction d with
  | nil => simp [dget] at h
  | cons e rest ih =>
      rcases e with ⟨k₀, v₀⟩
      by_cases he : k₀ = k
      · have hv : v₀ = v := by simpa [dget, he] using h
        rw [← he, ← hv]
        exact .head _
      · exact .tail _ (ih (by simpa [dget, he] using h))

theorem dget_eq_none {κ α : Type} [DecidableEq κ] {d : Dict κ α} {k : κ}
    (h : ∀ e ∈ d, e.1 ≠ k) : dget d k = none := by
  induction d with
  | nil => rfl
  | cons e rest ih =>
      have h1 : ¬ e.1 = k := h e (.head _)
      simp only [dget, if_neg h1]
      exact ih fun e' he' => h e' (.tail _ he')

theorem mem_dkeys_dset {κ α : Type} [DecidableEq κ] {d : Dict κ α} {k k' : κ}
    {v : α} (h : k' ∈ dkeys (dset d k v)) : k' ∈ dkeys d ∨ k' = k := by
  rcases (by simpa [dkeys] using h : ∃ w, (k', w) ∈ dset d k v) with ⟨w, hw⟩
  rcases mem_dset hw with h1 | h1
  · exact .inr (congrArg Prod.fst h1)
  · exact .inl (by simp [dkeys]; exact ⟨w, h1⟩)

theorem nodup_dkeys_dset {κ α : Type} [DecidableEq κ] {d : Dict κ α} (k : κ)
    (v : α) (h : (dkeys d).Nodup) : (dkeys (dset d k v)).Nodup := by
  induction d with
  | nil => simp [dset, dkeys]
  | cons e rest ih =>
      have hkeys : dkeys (e :: rest) = e.1 :: dkeys rest := rfl
      rw [hkeys] at h
      rcases List.nodup_cons.1 h with ⟨h1, h2⟩
      by_cases he : e.1 = k
      · have : dkeys (dset (e :: rest) k v) = e.1 :: dkeys rest := by
          simp [dset, dkeys, he]
        rw [this]
        exact List.nodup_cons.2 ⟨h1, h2⟩
      · have : dkeys (dset (e :: rest) k v) = e.1 :: dkeys (dset rest k v) := by
          simp [dset, dkeys, he]
        rw [this]
        refine List.nodup_cons.2 ⟨?_, ih h2⟩
        intro hmem
        rcases mem_dkeys_dset hmem with h3 | h3
        · exact h1 h3
        · exact he h3

theorem ddel_sublist {κ α : Type} [DecidableEq κ] (d : Dict κ α) (k : κ) :
    (ddel d k).Sublist d := by
  induction d with
  | nil => simp [ddel]
  | cons e rest ih =>
      by_cases he : e.1 = k
      · rw [ddel, if_pos he]
        exact List.sublist_cons_self e rest
      · rw [ddel, if_neg he]
        exact ih.cons₂ e

theorem mem_ddel {κ α : Type} [DecidableEq κ] {d : Dict κ α} {k : κ}
    {e : κ × α} (h : e ∈ ddel d k) : e ∈ d :=
  (ddel_sublist d k).mem h

theorem nodup_dkeys_ddel {κ α : Type} [DecidableEq κ] {d : Dict κ α} (k : κ)
    (h : (dkeys d).Nodup) : (dkeys (ddel d k)).Nodup := by
  have hsub : (dkeys (ddel d k)).Sublist (dkeys d) :=
    (ddel_sublist d k).map Prod.fst
  exact hsub.nodup h

theorem dget_dset_eq_none_iff {κ α : Type} [DecidableEq κ] (d : Dict κ α)
    (k k' : κ) (v : α) :
    dget (dset d k v) k' = none ↔ dget d k' = none ∧ k' ≠ k := by
  constructor
  · intro h
    by_cases hk : k' = k
    · rw [hk, dget_dset_self] at h; cases h
    · exact ⟨by rwa [dget_dset_ne _ _ _ _ hk] at h, hk⟩
  · intro ⟨h1, h2⟩
    rwa [dget_dset_ne _ _ _ _ h2]

/-! ### Inversion lemmas for `buy_logic` and `cart_checkout_logic` -/

theorem tokenMissing_some_iff (t : String) :
    tokenMissing (some t) = false ↔ t ≠ "" := by
  simp [tokenMissing]

/-- Every failure path of `buy_logic` leaves the state unchanged: in the
source, every `raise` happens before the commit block. -/
theorem buy_error_state (req : BuyRequest) (k? : Option String)
    (s : StoreState) (e : HTTPException)
    (h : (buy_logic req k? s).1 = .error e) :
    (buy_logic req k? s).2.1 = s := by
  unfold buy_logic at h ⊢
  cases htm : tokenMissing k? with
  | true => simp [htm]
  | false =>
    simp only [htm, Bool.false_eq_true, if_false] at h ⊢
    cases hidem : dget s.idem (k?.getD "") with
    | some prev => simp [hidem]
    | none =>
      simp only [hidem] at h ⊢
      by_cases hq : req.quantity ≤ 0
      · simp [hq]
      · simp only [hq, if_false] at h ⊢
        cases hprod : dget s.products req.product_id with
        | none => simp
        | some prod =>
          simp only [hprod] at h ⊢
          by_cases hs : prod.quantity < req.quantity
          · simp [hs]
          · simp only [hs, if_false] at h ⊢
            by_cases hb : (dget s.wallets req.user_email).getD 0 <
                prod.price_cents * req.quantity
            · simp [hb]
            · simp [hb] at h

/-- Every failure path of `cart_checkout_logic` leaves the state unchanged. -/
theorem checkout_error_state (u : String) (k? : Option String)
    (s : StoreState) (e : HTTPException)
    (h : (cart_checkout_logic u k? s).1 = .error e) :
    (cart_checkout_logic u k? s).2.1 = s := by
  unfold cart_checkout_logic at h ⊢
  cases htm : tokenMissing k? with
  | true => simp [htm]
  | false =>
    simp only [htm, Bool.false_eq_true, if_false] at h ⊢
    cases hidem : dget s.idem (k?.getD "") with
    | some prev => simp [hidem]
    | none =>
      simp only [hidem] at h ⊢
      by_cases hc : (dget s.carts u).getD [] = []
      · simp [hc]
      · simp only [hc, if_false] at h ⊢
        cases hlines : checkLines ((dget s.carts u).getD []) s.products with
        | error e' => simp [hlines]
        | ok ti =>
          simp only [hlines] at h ⊢
          by_cases hb : (dget s.wallets u).getD 0 < ti.1
          · simp [hb]
          · simp [hb] at h

/-- A cached idempotency token short-circuits `buy_logic`: the cached order
is returned verbatim, nothing mutates, no locks are taken. -/
theorem buy_cached (req : BuyRequest) (t : String) (s : StoreState) (r : Order)
    (ht : t ≠ "") (hc : dget s.idem t = some r) :
    buy_logic req (some t) s = (.ok r, s, []) := by
  unfold buy_logic
  simp [tokenMissing, ht, hc]

/-- A cached idempotency token short-circuits `cart_checkout_logic`. -/
theorem checkout_cached (u : String) (t : String) (s : StoreState) (r : Order)
    (ht : t ≠ "") (hc : dget s.idem t = some r) :
    cart_checkout_logic u (some t) s = (.ok r, s, []) := by
  unfold cart_checkout_logic
  simp [tokenMissing, ht, hc]

/-- Inversion of a successful fresh-token `buy_logic` call: all the
validations passed and the commit is exactly the expected one. -/
theorem buy_ok_fresh (req : BuyRequest) (t : String) (s : StoreState)
    (o : Order) (ht : t ≠ "") (hfresh : dget s.idem t = none)
    (h : (buy_logic req (some t) s).1 = .ok o) :
    ∃ prod, dget s.products req.product_id = some prod ∧
      0 < req.quantity ∧ req.quantity ≤ prod.quantity ∧
      prod.price_cents * req.quantity ≤ (dget s.wallets req.user_email).getD 0 ∧
      o = { id := s.ocounter, user_email := req.user_email,
            items := [{ product_id := req.product_id, name := prod.name,
                        quantity := req.quantity,
                        line_total_cents := prod.price_cents * req.quantity }],
            total_cents := prod.price_cents * req.quantity,
            status := "placed" } ∧
      (buy_logic req (some t) s).2.1 =
        { s with
            products := dset s.products req.product_id
              { prod with quantity := prod.quantity - req.quantity },
            wallets := dset s.wallets req.user_email
              ((dget s.wallets req.user_email).getD 0 -
                prod.price_cents * req.quantity),
            orders := dset s.orders s.ocounter o,
            idem := dset s.idem t o,
            ocounter := s.ocounter + 1 } := by
  unfold buy_logic at h ⊢
  have htm : tokenMissing (some t) = false := by simp [tokenMissing, ht]
  simp only [htm, Bool.false_eq_true, if_false, Option.getD_some,
    hfresh] at h ⊢
  by_cases hq : req.quantity ≤ 0
  · simp [hq] at h
  · simp only [hq, if_false] at h ⊢
    cases hprod : dget s.products req.product_id with
    | none => simp [hprod] at h
    | some prod =>
      simp only [hprod] at h ⊢
      by_cases hs : prod.quantity < req.quantity
      · simp [hs] at h
      · simp only [hs, if_false] at h ⊢
        by_cases hb : (dget s.wallets req.user_email).getD 0 <
            prod.price_cents * req.quantity
        · simp [hb] at h
        · simp only [hb, if_false] at h ⊢
          have ho : o =
              { id := s.ocounter, user_email := req.user_email,
                items := [{ product_id := req.product_id, name := prod.name,
                            quantity := req.quantity,
                            line_total_cents :=
                              prod.price_cents * req.quantity }],
                total_cents := prod.price_cents * req.quantity,
                status := "placed" } := by
            injection h with h'
            exact h'.symm
          refine ⟨prod, rfl, by omega, by omega, by omega, ho, ?_⟩
          rw [ho]

/-- Inversion of a successful fresh-token `cart_checkout_logic` call. -/
theorem checkout_ok_fresh (u t : String) (s : StoreState) (o : Order)
    (ht : t ≠ "") (hfresh : dget s.idem t = none)
    (h : (cart_checkout_logic u (some t) s).1 = .ok o) :
    ∃ total items, (dget s.carts u).getD [] ≠ [] ∧
      checkLines ((dget s.carts u).getD []) s.products = .ok (total, items) ∧
      total ≤ (dget s.wallets u).getD 0 ∧
      o = { id := s.ocounter, user_email := u, items := items,
            total_cents := total, status := "placed" } ∧
      (cart_checkout_logic u (some t) s).2.1 =
        { s with
            products := decProducts ((dget s.carts u).getD []) s.products,
            wallets := dset s.wallets u ((dget s.wallets u).getD 0 - total),
            orders := dset s.orders s.ocounter o,
            carts := dset s.carts u [],
            idem := dset s.idem t o,
            ocounter := s.ocounter + 1 } := by
  unfold cart_checkout_logic at h ⊢
  have htm : tokenMissing (some t) = false := by simp [tokenMissing, ht]
  simp only [htm, Bool.false_eq_true, if_false, Option.getD_some,
    hfresh] at h ⊢
  by_cases hc : (dget s.carts u).getD [] = []
  · simp [hc] at h
  · simp only [hc, if_false] at h ⊢
    cases hlines : checkLines ((dget s.carts u).getD []) s.products with
    | error e' => simp [hlines] at h
    | ok ti =>
      rcases ti with ⟨total0, items0⟩
      simp only [hlines] at h ⊢
      by_cases hb : (dget s.wallets u).getD 0 < total0
      · simp [hb] at h
      · simp only [hb, if_false] at h ⊢
        have ho : o =
            { id := s.ocounter, user_email := u, items := items0,
              total_cents := total0, status := "placed" } := by
          injection h with h'
          exact h'.symm
        exact ⟨total0, items0, hc, rfl, by omega, ho, by rw [ho]⟩

/-- Every line accepted by `checkLines` names an existing product, has a
positive quantity, and fits in that product's stock. -/
theorem checkLines_ok_bounds (cart : Dict String Int)
    (ps : Dict String Product) (total : Int) (items : List LineItem)
    (h : checkLines cart ps = .ok (total, items)) :
    ∀ pq ∈ cart, ∃ prod, dget ps pq.1 = some prod ∧
      0 < pq.2 ∧ pq.2 ≤ prod.quantity := by
  induction cart generalizing total items with
  | nil => intro pq hpq; cases hpq
  | cons e rest ih =>
      intro pq hpq
      rcases e with ⟨pid, qty⟩
      unfold checkLines at h
      cases hprod : dget ps pid with
      | none => simp [hprod] at h
      | some prod =>
        simp only [hprod] at h
        by_cases hq : qty ≤ 0
        · simp [hq] at h
        · simp only [hq, if_false] at h
          by_cases hs : prod.quantity < qty
          · simp [hs] at h
          · simp only [hs, if_false] at h
            cases hrest : checkLines rest ps with
            | error e' => simp [hrest] at h
            | ok ti =>
              simp only [hrest] at h
              rcases List.mem_cons.1 hpq with h1 | h1
              · subst h1
                exact ⟨prod, hprod, by omega, by omega⟩
              · exact ih ti.1 ti.2 (by rw [hrest]) pq h1

/-- The line items produced by `checkLines` are exactly the cart lines,
with the catalog name and line total attached. -/
theorem checkLines_items (cart : Dict String Int) (ps : Dict String Product)
    (total : Int) (items : List LineItem)
    (h : checkLines cart ps = .ok (total, items)) :
    items.map (fun it => (it.product_id, it.quantity)) = cart := by
  induction cart generalizing total items with
  | nil =>
      unfold checkLines at h
      injection h with h'
      injection h' with h1 h2
      subst h2
      rfl
  | cons e rest ih =>
      rcases e with ⟨pid, qty⟩
      unfold checkLines at h
      cases hprod : dget ps pid with
      | none => simp [hprod] at h
      | some prod =>
        simp only [hprod] at h
        by_cases hq : qty ≤ 0
        · simp [hq] at h
        · simp only [hq, if_false] at h
          by_cases hs : prod.quantity < qty
          · simp [hs] at h
          · simp only [hs, if_false] at h
            cases hrest : checkLines rest ps with
            | error e' => simp [hrest] at h
            | ok ti =>
              simp only [hrest] at h
              injection h with h'
              injection h' with h1 h2
              subst h2
              simp only [List.map_cons]
              rw [ih ti.1 ti.2 hrest]

/-- `checkLines` totals are the sum of the line totals it emits. -/
theorem checkLines_total (cart : Dict String Int) (ps : Dict String Product)
    (total : Int) (items : List LineItem)
    (h : checkLines cart ps = .ok (total, items)) :
    total = (items.map (fun it => it.line_total_cents)).sum := by
  induction cart generalizing total items with
  | nil =>
      unfold checkLines at h
      injection h with h'
      injection h' with h1 h2
      subst h1
      subst h2
      rfl
  | cons e rest ih =>
      rcases e with ⟨pid, qty⟩
      unfold checkLines at h
      cases hprod : dget ps pid with
      | none => simp [hprod] at h
      | some prod =>
        simp only [hprod] at h
        by_cases hq : qty ≤ 0
        · simp [hq] at h
        · simp only [hq, if_false] at h
          by_cases hs : prod.quantity < qty
          · simp [hs] at h
          · simp only [hs, if_false] at h
            cases hrest : checkLines rest ps with
            | error e' => simp [hrest] at h
            | ok ti =>
              simp only [hrest] at h
              injection h with h'
              injection h' with h1 h2
              subst h1
              subst h2
              simp only [List.map_cons, List.sum_cons]
              rw [← ih ti.1 ti.2 hrest]

/-- `decProducts` does not touch products outside the cart. -/
theorem dget_decProducts_not_mem (cart : Dict String Int)
    (ps : Dict String Product) (pid : String) (h : pid ∉ dkeys cart) :
    dget (decProducts cart ps) pid = dget ps pid := by
  induction cart generalizing ps with
  | nil => rfl
  | cons e rest ih =>
      have hne : pid ≠ e.1 := by
        intro heq
        exact h (by simp [dkeys, heq])
      have hrest : pid ∉ dkeys rest := by
        intro hmem
        exact h (by simp [dkeys] at hmem ⊢; exact .inr hmem)
      rcases e with ⟨p0, q0⟩
      unfold decProducts
      cases hp : dget ps p0 with
      | none => exact ih ps hrest
      | some prod =>
          rw [ih _ hrest]
          exact dget_dset_ne _ _ _ _ hne

/-- `decProducts` decrements each cart line's product by the line quantity
(given unique cart keys). -/
theorem dget_decProducts_mem (cart : Dict String Int)
    (ps : Dict String Product) (pid : String) (qty : Int) (prod : Product)
    (hnd : (dkeys cart).Nodup) (hmem : (pid, qty) ∈ cart)
    (hget : dget ps pid = some prod) :
    dget (decProducts cart ps) pid =
      some { prod with quantity := prod.quantity - qty } := by
  induction cart generalizing ps with
  | nil => cases hmem
  | cons e rest ih =>
      rcases e with ⟨p0, q0⟩
      have hnd' : (dkeys rest).Nodup := (List.nodup_cons.1 hnd).2
      have hp0 : p0 ∉ dkeys rest := (List.nodup_cons.1 hnd).1
      rcases List.mem_cons.1 hmem with h1 | h1
      · have hpid : pid = p0 := congrArg Prod.fst h1
        have hqty : qty = q0 := congrArg Prod.snd h1
        subst hpid; subst hqty
        unfold decProducts
        rw [hget]
        rw [dget_decProducts_not_mem rest _ pid hp0]
        exact dget_dset_self _ _ _
      · have hpid : pid ≠ p0 := by
          intro heq
          have hin : pid ∈ dkeys rest := by
            simp [dkeys]
            exact ⟨qty, h1⟩
          exact hp0 (heq ▸ hin)
        unfold decProducts
        cases hp : dget ps p0 with
        | none => exact ih ps hnd' h1 hget
        | some prod0 =>
            exact ih _ hnd' h1 (by rw [dget_dset_ne _ _ _ _ hpid]; exact hget)

/-- `decProducts` creates no products and deletes none. -/
theorem dget_decProducts_eq_none_iff (cart : Dict String Int)
    (ps : Dict String Product) (pid : String) :
    dget (decProducts cart ps) pid = none ↔ dget ps pid = none := by
  induction cart generalizing ps with
  | nil => exact Iff.rfl
  | cons e rest ih =>
      rcases e with ⟨p0, q0⟩
      unfold decProducts
      cases hp : dget ps p0 with
      | none => exact ih ps
      | some prod =>
          rw [ih]
          constructor
          · intro h
            rcases (dget_dset_eq_none_iff ps p0 pid _).1 h with ⟨h1, _⟩
            exact h1
          · intro h
            refine (dget_dset_eq_none_iff ps p0 pid _).2 ⟨h, ?_⟩
            intro heq
            rw [heq] at h
            rw [h] at hp
            cases hp

/-- If all products are in stock at least what each (unique-keyed) cart line
asks, the decremented catalog still has no negative quantity. -/
theorem decProducts_nonneg (cart : Dict String Int) (ps : Dict String Product)
    (hnd : (dkeys cart).Nodup)
    (hps : ∀ e ∈ ps, 0 ≤ e.2.quantity)
    (hbound : ∀ pq ∈ cart, ∀ prod, dget ps pq.1 = some prod →
      pq.2 ≤ prod.quantity) :
    ∀ e ∈ decProducts cart ps, 0 ≤ e.2.quantity := by
  induction cart generalizing ps with
  | nil => exact hps
  | cons e0 rest ih =>
      rcases e0 with ⟨p0, q0⟩
      have hnd' : (dkeys rest).Nodup := (List.nodup_cons.1 hnd).2
      have hp0 : p0 ∉ dkeys rest := (List.nodup_cons.1 hnd).1
      unfold decProducts
      cases hp : dget ps p0 with
      | none =>
          exact ih ps hnd' hps (fun pq hpq => hbound pq (.tail _ hpq))
      | some prod =>
          refine ih _ hnd' ?_ ?_
          · intro e he
            rcases mem_dset he with h1 | h1
            · rw [h1]
              have := hbound (p0, q0) (.head _) prod hp
              simp only
              omega
            · exact hps e h1
          · intro pq hpq prod' hget
            have hpid : pq.1 ≠ p0 := by
              intro heq
              have hin : pq.1 ∈ dkeys rest := by
                simp [dkeys]
                exact ⟨pq.2, hpq⟩
              exact hp0 (heq ▸ hin)
            rw [dget_dset_ne _ _ _ _ hpid] at hget
            exact hbound pq (.tail _ hpq) prod' hget

/-- One invocation of a state-mutating public operation. -/
inductive Op where
  | register (name : String) (price_cents quantity : Int) (category : String)
  | topup (user_email : String) (amount_cents : Int)
  | cartAdd (user_email product_id : String) (quantity : Int)
  | cartRemove (user_email product_id : String) (quantity : Option Int)
  | buy (user_email product_id : String) (quantity : Int)
      (idempotency_key : Option String)
  | checkout (user_email : String) (idempotency_key : Option String)
deriving DecidableEq

/-- Apply one operation to the state. A raised `HTTPException` aborts the
request; in the source, every raise happens before any store mutation, so
the corresponding error branches return the state at the raise point. -/
def applyOp (s : StoreState) : Op → StoreState
  | .register n p q c => (seller_register_logic ⟨n, p, q, c⟩ s).2
  | .topup u a => (wallet_topup_logic u a s).2
  | .cartAdd u pid q => (cart_add_logic u pid q s).2
  | .cartRemove u pid q => (cart_remove_logic u pid q s).2
  | .buy u pid q k => (buy_logic ⟨u, pid, q⟩ k s).2.1
  | .checkout u k => (cart_checkout_logic u k s).2.1

/-- Run a sequence of operations from the empty initial state. -/
def runOps (ops : List Op) : StoreState := ops.foldl applyOp initState

/-- A state is reachable when some operation sequence produces it. -/
def Reachable (s : StoreState) : Prop := ∃ ops : List Op, runOps ops = s

/-! ### The reachable-state invariant -/

/-- Structural invariant maintained by every public operation. -/
structure Inv (s : StoreState) : Prop where
  wallets_nonneg : ∀ e ∈ s.wallets, 0 ≤ e.2
  carts_pos : ∀ c ∈ s.carts, ∀ e ∈ c.2, 0 < e.2
  carts_nodup : ∀ c ∈ s.carts, (dkeys c.2).Nodup
  orders_lt : ∀ e ∈ s.orders, e.1 < s.ocounter
  idem_ne : ∀ e ∈ s.idem, e.1 ≠ ""

theorem inv_wallet_getD {s : StoreState} (h : Inv s) (u : String) :
    0 ≤ (dget s.wallets u).getD 0 := by
  cases hw : dget s.wallets u with
  | none => simp
  | some w => simpa using h.wallets_nonneg (u, w) (dget_mem hw)

theorem inv_cart_pos {s : StoreState} (h : Inv s) (u : String) :
    ∀ e ∈ (dget s.carts u).getD [], 0 < e.2 := by
  cases hc : dget s.carts u with
  | none => intro e he; cases he
  | some c => simpa using h.carts_pos (u, c) (dget_mem hc)

theorem inv_cart_nodup {s : StoreState} (h : Inv s) (u : String) :
    (dkeys ((dget s.carts u).getD [])).Nodup := by
  cases hc : dget s.carts u with
  | none => simp [dkeys]
  | some c => simpa using h.carts_nodup (u, c) (dget_mem hc)

theorem tokenMissing_eq_false {k? : Option String}
    (h : tokenMissing k? = false) : ∃ t, k? = some t ∧ t ≠ "" := by
  cases k? with
  | none => cases h
  | some t => exact ⟨t, rfl, by simpa [tokenMissing] using h⟩

theorem buy_missing (req : BuyRequest) (k? : Option String) (s : StoreState)
    (h : tokenMissing k? = true) :
    buy_logic req k? s =
      (.error ⟨400, "Idempotency-Key header required"⟩, s, []) := by
  unfold buy_logic
  simp [h]

theorem checkout_missing (u : String) (k? : Option String) (s : StoreState)
    (h : tokenMissing k? = true) :
    cart_checkout_logic u k? s =
      (.error ⟨400, "Idempotency-Key header required"⟩, s, []) := by
  unfold cart_checkout_logic
  simp [h]

theorem inv_register (p : ProductIn) {s : StoreState} (h : Inv s) :
    Inv (seller_register_logic p s).2 := by
  refine ⟨?_, ?_, ?_, ?_, ?_⟩ <;>
    simp only [seller_register_logic] <;>
    first
      | exact h.wallets_nonneg
      | exact h.carts_pos
      | exact h.carts_nodup
      | exact h.orders_lt
      | exact h.idem_ne

theorem inv_topup (u : String) (a : Int) {s : StoreState} (h : Inv s) :
    Inv (wallet_topup_logic u a s).2 := by
  unfold wallet_topup_logic
  by_cases ha : a ≤ 0
  · simpa [ha] using h
  · simp only [ha, if_false]
    refine ⟨?_, h.carts_pos, h.carts_nodup, h.orders_lt, h.idem_ne⟩
    intro e he
    rcases mem_dset he with h1 | h1
    · rw [h1]
      have := inv_wallet_getD h u
      simp only
      omega
    · exact h.wallets_nonneg e h1

theorem inv_cartAdd (u pid : String) (q : Int) {s : StoreState} (h : Inv s) :
    Inv (cart_add_logic u pid q s).2 := by
  unfold cart_add_logic
  by_cases hq : q ≤ 0
  · simpa [hq] using h
  · by_cases hp : (dget s.products pid).isNone
    · simpa [hq, hp] using h
    · simp only [hq, hp, if_false]
      refine ⟨h.wallets_nonneg, ?_, ?_, h.orders_lt, h.idem_ne⟩
      · intro c hc e he
        rcases mem_dset hc with h1 | h1
        · rw [h1] at he
          rcases mem_dset he with h2 | h2
          · rw [h2]
            have hold : 0 ≤ (dget ((dget s.carts u).getD []) pid).getD 0 := by
              cases hg : dget ((dget s.carts u).getD []) pid with
              | none => simp
              | some w =>
                  have := inv_cart_pos h u (pid, w) (dget_mem hg)
                  simp only [Option.getD_some]
                  simp only at this
                  omega
            simp only
            omega
          · exact inv_cart_pos h u e h2
        · exact h.carts_pos c h1 e he
      · intro c hc
        rcases mem_dset hc with h1 | h1
        · rw [h1]
          exact nodup_dkeys_dset _ _ (inv_cart_nodup h u)
        · exact h.carts_nodup c h1

theorem inv_cartRemove (u pid : String) (q? : Option Int) {s : StoreState}
    (h : Inv s) : Inv (cart_remove_logic u pid q? s).2 := by
  unfold cart_remove_logic
  cases hg : dget s.carts u with
  | none =>
      simp only [hg, dget_dset_self, Option.getD_some, dget]
      refine ⟨h.wallets_nonneg, ?_, ?_, h.orders_lt, h.idem_ne⟩
      · intro c hc e he
        rcases mem_dset hc with h1 | h1
        · rw [h1] at he; cases he
        · exact h.carts_pos c h1 e he
      · intro c hc
        rcases mem_dset hc with h1 | h1
        · rw [h1]; simp [dkeys]
        · exact h.carts_nodup c h1
  | some c0 =>
      simp only [hg, Option.getD_some]
      have hc0pos : ∀ e ∈ c0, 0 < e.2 := h.carts_pos (u, c0) (dget_mem hg)
      have hc0nd : (dkeys c0).Nodup := h.carts_nodup (u, c0) (dget_mem hg)
      cases hline : dget c0 pid with
      | none =>
          simp only [hline]
          exact ⟨h.wallets_nonneg, h.carts_pos, h.carts_nodup, h.orders_lt,
            h.idem_ne⟩
      | some cur =>
          simp only [hline]
          cases q? with
          | none =>
              refine ⟨h.wallets_nonneg, ?_, ?_, h.orders_lt, h.idem_ne⟩
              · intro c hc e he
                rcases mem_dset hc with h1 | h1
                · rw [h1] at he
                  exact hc0pos e (mem_ddel he)
                · exact h.carts_pos c h1 e he
              · intro c hc
                rcases mem_dset hc with h1 | h1
                · rw [h1]; exact nodup_dkeys_ddel _ hc0nd
                · exact h.carts_nodup c h1
          | some q =>
              by_cases hq : q ≤ 0
              · simp only [hq, if_true]
                exact ⟨h.wallets_nonneg, h.carts_pos, h.carts_nodup,
                  h.orders_lt, h.idem_ne⟩
              · simp only [hq, if_false]
                by_cases hcur : cur ≤ q
                · simp only [hcur, if_true]
                  refine ⟨h.wallets_nonneg, ?_, ?_, h.orders_lt, h.idem_ne⟩
                  · intro c hc e he
                    rcases mem_dset hc with h1 | h1
                    · rw [h1] at he
                      exact hc0pos e (mem_ddel he)
                    · exact h.carts_pos c h1 e he
                  · intro c hc
                    rcases mem_dset hc with h1 | h1
                    · rw [h1]; exact nodup_dkeys_ddel _ hc0nd
                    · exact h.carts_nodup c h1
                · simp only [hcur, if_false]
                  refine ⟨h.wallets_nonneg, ?_, ?_, h.orders_lt, h.idem_ne⟩
                  · intro c hc e he
                    rcases mem_dset hc with h1 | h1
                    · rw [h1] at he
                      rcases mem_dset he with h2 | h2
                      · rw [h2]
                        simp only
                        omega
                      · exact hc0pos e h2
                    · exact h.carts_pos c h1 e he
                  · intro c hc
                    rcases mem_dset hc with h1 | h1
                    · rw [h1]; exact nodup_dkeys_dset _ _ hc0nd
                    · exact h.carts_nodup c h1

theorem inv_buy (u pid : String) (q : Int) (k? : Option String)
    {s : StoreState} (h : Inv s) : Inv (buy_logic ⟨u, pid, q⟩ k? s).2.1 := by
  cases htm : tokenMissing k? with
  | true => rw [buy_missing _ _ _ htm]; exact h
  | false =>
    rcases tokenMissing_eq_false htm with ⟨t, rfl, ht⟩
    cases hc : dget s.idem t with
    | some r => rw [buy_cached _ _ _ _ ht hc]; exact h
    | none =>
      rcases hres : (buy_logic ⟨u, pid, q⟩ (some t) s).1 with e | o
      · rw [buy_error_state _ _ _ _ hres]; exact h
      · rcases buy_ok_fresh _ _ _ _ ht hc hres with
          ⟨prod, hprod, hq, hstock, hfunds, ho, hstate⟩
        simp only at hq hstock hfunds hstate
        rw [hstate]
        refine ⟨?_, h.carts_pos, h.carts_nodup, ?_, ?_⟩
        · intro e he
          rcases mem_dset he with h1 | h1
          · rw [h1]
            simp only
            omega
          · exact h.wallets_nonneg e h1
        · intro e he
          rcases mem_dset he with h1 | h1
          · rw [h1]
            simp only
            omega
          · have := h.orders_lt e h1
            simp only at this ⊢
            omega
        · intro e he
          rcases mem_dset he with h1 | h1
          · rw [h1]
            exact ht
          · exact h.idem_ne e h1

theorem inv_checkout (u : String) (k? : Option String) {s : StoreState}
    (h : Inv s) : Inv (cart_checkout_logic u k? s).2.1 := by
  cases htm : tokenMissing k? with
  | true => rw [checkout_missing _ _ _ htm]; exact h
  | false =>
    rcases tokenMissing_eq_false htm with ⟨t, rfl, ht⟩
    cases hc : dget s.idem t with
    | some r => rw [checkout_cached _ _ _ _ ht hc]; exact h
    | none =>
      rcases hres : (cart_checkout_logic u (some t) s).1 with e | o
      · rw [checkout_error_state _ _ _ _ hres]; exact h
      · rcases checkout_ok_fresh _ _ _ _ ht hc hres with
          ⟨total, items, hcne, hlines, hfunds, ho, hstate⟩
        rw [hstate]
        refine ⟨?_, ?_, ?_, ?_, ?_⟩
        · intro e he
          rcases mem_dset he with h1 | h1
          · rw [h1]
            simp only
            omega
          · exact h.wallets_nonneg e h1
        · intro c hc' e he
          rcases mem_dset hc' with h1 | h1
          · rw [h1] at he; cases he
          · exact h.carts_pos c h1 e he
        · intro c hc'
          rcases mem_dset hc' with h1 | h1
          · rw [h1]; simp [dkeys]
          · exact h.carts_nodup c h1
        · intro e he
          rcases mem_dset he with h1 | h1
          · rw [h1]
            simp only
            omega
          · have := h.orders_lt e h1
            simp only at this ⊢
            omega
        · intro e he
          rcases mem_dset he with h1 | h1
          · rw [h1]
            exact ht
          · exact h.idem_ne e h1

theorem inv_applyOp (op : Op) {s : StoreState} (h : Inv s) :
    Inv (applyOp s op) := by
  cases op with
  | register n p q c => exact inv_register ⟨n, p, q, c⟩ h
  | topup u a => exact inv_topup u a h
  | cartAdd u pid q => exact inv_cartAdd u pid q h
  | cartRemove u pid q => exact inv_cartRemove u pid q h
  | buy u pid q k => exact inv_buy u pid q k h
  | checkout u k => exact inv_checkout u k h

theorem inv_foldl (ops : List Op) : ∀ s : StoreState, Inv s →
    Inv (ops.foldl applyOp s) := by
  induction ops with
  | nil => exact fun s h => h
  | cons op rest ih => exact fun s h => ih _ (inv_applyOp op h)

theorem inv_initState : Inv initState := by
  refine ⟨?_, ?_, ?_, ?_, ?_⟩ <;> intro e he <;> cases he

theorem inv_runOps (ops : List Op) : Inv (runOps ops) :=
  inv_foldl ops initState inv_initState

theorem inv_reachable {s : StoreState} (h : Reachable s) : Inv s := by
  rcases h with ⟨ops, rfl⟩
  exact inv_runOps ops

/-! ### Lock discipline -/

/-- The keys acquired during a lock trace, in acquisition order. -/
def acquires : List LockEvent → List String
  | [] => []
  | .acquire k :: rest => k :: acquires rest
  | .release _ :: rest => acquires rest

/-- The keys released during a lock trace, in release order. -/
def releases : List LockEvent → List String
  | [] => []
  | .release k :: rest => k :: releases rest
  | .acquire _ :: rest => releases rest

theorem acquires_append (tr tr' : List LockEvent) :
    acquires (tr ++ tr') = acquires tr ++ acquires tr' := by
  induction tr with
  | nil => rfl
  | cons e rest ih => cases e <;> simp [acquires, ih]

theorem releases_append (tr tr' : List LockEvent) :
    releases (tr ++ tr') = releases tr ++ releases tr' := by
  induction tr with
  | nil => rfl
  | cons e rest ih => cases e <;> simp [releases, ih]

theorem acquires_map_acquire (K : List String) :
    acquires (K.map LockEvent.acquire) = K := by
  induction K with
  | nil => rfl
  | cons k rest ih => simp [acquires, ih]

theorem acquires_map_release (K : List String) :
    acquires (K.map LockEvent.release) = [] := by
  induction K with
  | nil => rfl
  | cons k rest ih => simp [acquires, ih]

theorem releases_map_release (K : List String) :
    releases (K.map LockEvent.release) = K := by
  induction K with
  | nil => rfl
  | cons k rest ih => simp [releases, ih]

theorem releases_map_acquire (K : List String) :
    releases (K.map LockEvent.acquire) = [] := by
  induction K with
  | nil => rfl
  | cons k rest ih => simp [releases, ih]

/-- `buy_logic` either takes no locks at all, or produces the full
acquire-then-release trace over its sorted key list. -/
theorem buy_trace_shape (req : BuyRequest) (k? : Option String)
    (s : StoreState) :
    (buy_logic req k? s).2.2 = [] ∨
    (buy_logic req k? s).2.2 =
      (buyLockOrder req).map LockEvent.acquire ++
      ((buyLockOrder req).reverse).map LockEvent.release := by
  unfold buy_logic
  cases htm : tokenMissing k? with
  | true => simp [htm]
  | false =>
    simp only [htm, Bool.false_eq_true, if_false]
    cases hidem : dget s.idem (k?.getD "") with
    | some prev => simp
    | none =>
      simp only
      by_cases hq : req.quantity ≤ 0
      · simp [hq]
      · simp only [hq, if_false]
        cases hprod : dget s.products req.product_id with
        | none => simp
        | some prod =>
          simp only
          by_cases hs : prod.quantity < req.quantity
          · simp [hs]
          · simp only [hs, if_false]
            by_cases hb : (dget s.wallets req.user_email).getD 0 <
                prod.price_cents * req.quantity
            · simp [hb]
            · simp [hb]

/-- `cart_checkout_logic` either takes no locks at all, or produces the full
acquire-then-release trace over its sorted key list. -/
theorem checkout_trace_shape (u : String) (k? : Option String)
    (s : StoreState) :
    (cart_checkout_logic u k? s).2.2 = [] ∨
    (cart_checkout_logic u k? s).2.2 =
      (checkoutLockOrder u ((dget s.carts u).getD [])).map
          LockEvent.acquire ++
      ((checkoutLockOrder u ((dget s.carts u).getD [])).reverse).map
          LockEvent.release := by
  unfold cart_checkout_logic
  cases htm : tokenMissing k? with
  | true => simp [htm]
  | false =>
    simp only [htm, Bool.false_eq_true, if_false]
    cases hidem : dget s.idem (k?.getD "") with
    | some prev => simp
    | none =>
      simp only
      by_cases hc : (dget s.carts u).getD [] = []
      · simp [hc]
      · simp only [hc, if_false]
        cases hlines : checkLines ((dget s.carts u).getD []) s.products with
        | error e' => simp [hlines]
        | ok ti =>
          simp only [hlines]
          by_cases hb : (dget s.wallets u).getD 0 < ti.1
          · simp [hb]
          · simp [hb]

theorem buyLockOrder_sorted (req : BuyRequest) :
    List.Sorted (· ≤ ·) (buyLockOrder req) :=
  List.sorted_insertionSort _ _

theorem buyLockOrder_perm (req : BuyRequest) :
    (buyLockOrder req).Perm (buyKeys req) :=
  List.perm_insertionSort _ _

theorem checkoutLockOrder_sorted (u : String) (cart : Dict String Int) :
    List.Sorted (· ≤ ·) (checkoutLockOrder u cart) :=
  List.sorted_insertionSort _ _

theorem checkoutLockOrder_perm (u : String) (cart : Dict String Int) :
    (checkoutLockOrder u cart).Perm (checkoutKeys u cart) :=
  List.perm_insertionSort _ _

theorem productKey_injective (a b : String)
    (h : "product:" ++ a = "product:" ++ b) : a = b := by
  have h2 := congrArg String.data h
  rw [String.data_append, String.data_append] at h2
  exact String.ext (List.append_cancel_left h2)

theorem productKey_ne_walletKey (a b : String) :
    "product:" ++ a ≠ "wallet:" ++ b := by
  intro h
  have h2 := congrArg String.data h
  rw [String.data_append, String.data_append] at h2
  have hp : "product:".data =
      'p' :: ['r', 'o', 'd', 'u', 'c', 't', ':'] := rfl
  have hw : "wallet:".data = 'w' :: ['a', 'l', 'l', 'e', 't', ':'] := rfl
  rw [hp, hw, List.cons_append, List.cons_append] at h2
  injection h2 with hc _
  cases hc

theorem buyKeys_nodup (req : BuyRequest) : (buyKeys req).Nodup := by
  refine List.nodup_cons.2 ⟨?_, List.nodup_singleton _⟩
  intro hmem
  rcases List.mem_singleton.1 hmem with h
  exact productKey_ne_walletKey _ _ h

theorem checkoutKeys_nodup (u : String) (cart : Dict String Int)
    (h : (dkeys cart).Nodup) : (checkoutKeys u cart).Nodup := by
  unfold checkoutKeys
  refine List.Nodup.append ?_ (List.nodup_singleton _) ?_
  · have hinj : Function.Injective (fun pid => "product:" ++ pid) :=
      fun a b hab => productKey_injective a b hab
    have : cart.map (fun e => "product:" ++ e.1) =
        (dkeys cart).map (fun pid => "product:" ++ pid) := by
      simp [dkeys, List.map_map]
    rw [this]
    exact h.map hinj
  · intro k hk hk'
    rcases List.mem_singleton.1 hk' with rfl
    rcases List.mem_map.1 hk with ⟨e, _, heq⟩
    exact productKey_ne_walletKey e.1 u heq

theorem buyLockOrder_sorted_lt (req : BuyRequest) :
    List.Sorted (· < ·) (buyLockOrder req) :=
  (buyLockOrder_sorted req).lt_of_le
    ((buyLockOrder_perm req).nodup_iff.2 (buyKeys_nodup req))

theorem checkoutLockOrder_sorted_lt (u : String) (cart : Dict String Int)
    (h : (dkeys cart).Nodup) :
    List.Sorted (· < ·) (checkoutLockOrder u cart) :=
  (checkoutLockOrder_sorted u cart).lt_of_le
    ((checkoutLockOrder_perm u cart).nodup_iff.2 (checkoutKeys_nodup u cart h))

/-! ### Deadlock freedom

An abstract pool of in-flight transactions: each transaction knows the full
(sorted) key list it will lock and how many of those keys it currently
holds. Lock acquisition is one key at a time, in list order, exactly as the
`for l in locks: await l.acquire()` loops of `buy_logic` and
`cart_checkout_logic`. -/

/-- One in-flight `buy`/`checkout` operation: its sorted lock-key list and
the number of keys it has acquired so far. -/
structure Txn where
  keys : List String
  acquired : Nat
deriving DecidableEq

/-- The keys a transaction currently holds. -/
def Txn.held (t : Txn) : List String := t.keys.take t.acquired

/-- A transaction that has acquired all its keys can run its critical
section and complete. -/
def Txn.complete (t : Txn) : Prop := t.keys.length ≤ t.acquired

instance (t : Txn) : Decidable t.complete :=
  inferInstanceAs (Decidable (t.keys.length ≤ t.acquired))

/-- A transaction can make progress: it is complete (can commit and release)
or its next key is held by no other transaction (can acquire it). -/
def canStep (ts : List Txn) (i : Fin ts.length) : Prop :=
  (ts.get i).complete ∨
  (∃ k, (ts.get i).keys.get? (ts.get i).acquired = some k ∧
    ∀ j : Fin ts.length, j ≠ i → k ∉ (ts.get j).held)

theorem lt_get_of_mem_take {l : List String} {m : Nat} {a : String}
    (hs : List.Sorted (· < ·) l) (hm : m < l.length) (ha : a ∈ l.take m) :
    a < l.get ⟨m, hm⟩ := by
  induction l generalizing m with
  | nil => cases hm
  | cons x xs ih =>
      cases m with
      | zero => cases ha
      | succ n =>
          rcases List.sorted_cons.1 hs with ⟨hx, hxs⟩
          rcases List.mem_cons.1 (by simpa using ha) with h1 | h1
          · rw [h1]
            exact hx _ (List.get_mem xs n (Nat.lt_of_succ_lt_succ hm))
          · exact ih hxs (Nat.lt_of_succ_lt_succ hm) h1

/-- Deadlock freedom of the sorted-acquisition discipline: in any pool of
transactions with strictly sorted key lists and consistently held locks
(each key held by at most one transaction), if some transaction is still
incomplete then some transaction can make progress, so the pool can never
be globally stuck. -/
theorem sorted_pool_progress (ts : List Txn)
    (hsorted : ∀ t ∈ ts, List.Sorted (· < ·) t.keys)
    (hne : ∃ i : Fin ts.length, ¬ (ts.get i).complete) :
    ∃ i : Fin ts.length, canStep ts i := by
  by_contra hno
  push_neg at hno
  have hblocked : ∀ i : Fin ts.length, ¬ (ts.get i).complete ∧
      ∀ k, (ts.get i).keys.get? (ts.get i).acquired = some k →
        ∃ j : Fin ts.length, j ≠ i ∧ k ∈ (ts.get j).held := by
    intro i
    have h1 := hno i
    unfold canStep at h1
    push_neg at h1
    exact h1
  have hlt : ∀ i : Fin ts.length,
      (ts.get i).acquired < (ts.get i).keys.length := by
    intro i
    have := (hblocked i).1
    unfold Txn.complete at this
    omega
  have hnonempty : (Finset.univ : Finset (Fin ts.length)).Nonempty := by
    rcases hne with ⟨i, _⟩
    exact ⟨i, Finset.mem_univ i⟩
  obtain ⟨b, _, hmax⟩ := Finset.exists_max_image Finset.univ
    (fun i : Fin ts.length =>
      (ts.get i).keys.get ⟨(ts.get i).acquired, hlt i⟩) hnonempty
  set g := fun i : Fin ts.length =>
    (ts.get i).keys.get ⟨(ts.get i).acquired, hlt i⟩ with hg
  obtain ⟨j, hj, hmem⟩ := (hblocked b).2 (g b)
    (List.get?_eq_get (hlt b))
  have hless : g b < g j :=
    lt_get_of_mem_take (hsorted (ts.get j) (List.get_mem ts j.1 j.isLt))
      (hlt j) hmem
  have hle : g j ≤ g b := hmax j (Finset.mem_univ j)
  exact absurd (lt_of_lt_of_le hless hle) (lt_irrefl _)

/-! ### Stock conservation: committed order quantities never exceed the
registered quantity -/

theorem pidOf_injective : Function.Injective pidOf := by
  intro a b h
  have h2 := congrArg (fun s : String => s.data.length) h
  simp only [pidOf, List.length_replicate] at h2
  omega

theorem dset_eq_append {κ α : Type} [DecidableEq κ] {d : Dict κ α} {k : κ}
    (v : α) (h : dget d k = none) : dset d k v = d ++ [(k, v)] := by
  induction d with
  | nil => rfl
  | cons e rest ih =>
      by_cases he : e.1 = k
      · rw [dget, if_pos he] at h
        cases h
      · rw [dget, if_neg he] at h
        rcases e with ⟨k0, v0⟩
        simp only [dset, if_neg he, List.cons_append]
        rw [ih h]

theorem orders_fresh {s : StoreState} (h : Inv s) :
    dget s.orders s.ocounter = none := by
  refine dget_eq_none ?_
  intro e he
  have := h.orders_lt e he
  omega

/-- The total quantity of product `pid` inside one list of order lines. -/
def lineQty (pid : String) (items : List LineItem) : Int :=
  ((items.filter (fun it => it.product_id = pid)).map
    (fun it => it.quantity)).sum

/-- The total quantity of product `pid` committed by one order. -/
def itemQty (pid : String) (o : Order) : Int := lineQty pid o.items

/-- The total quantity of product `pid` across all stored orders. -/
def committedSum (pid : String) (orders : Dict Nat Order) : Int :=
  (orders.map (fun e => itemQty pid e.2)).sum

theorem committedSum_append (pid : String) (orders : Dict Nat Order)
    (k : Nat) (o : Order) :
    committedSum pid (orders ++ [(k, o)]) =
      committedSum pid orders + itemQty pid o := by
  simp [committedSum]

theorem lineQty_not_mem (pid : String) (items : List LineItem)
    (h : pid ∉ items.map (fun it => it.product_id)) : lineQty pid items = 0 := by
  induction items with
  | nil => rfl
  | cons it rest ih =>
      have h1 : ¬ (it.product_id = pid) := by
        intro heq
        exact h (by simp [heq])
      have h2 : pid ∉ rest.map (fun it => it.product_id) := by
        intro hmem
        exact h (by simp; exact .inr (by simpa using hmem))
      simp only [lineQty, List.filter_cons, h1, decide_eq_true_eq, if_neg h1]
      simpa [lineQty] using ih h2

theorem lineQty_nodup_mem (pid : String) (qty : Int) (items : List LineItem)
    (hnd : (items.map (fun it => it.product_id)).Nodup)
    (hmem : (pid, qty) ∈ items.map (fun it => (it.product_id, it.quantity))) :
    lineQty pid items = qty := by
  induction items with
  | nil => cases hmem
  | cons it rest ih =>
      rcases List.nodup_cons.1 hnd with ⟨hhead, hrest⟩
      rcases (by simpa using hmem :
          (pid, qty) = (it.product_id, it.quantity) ∨
          (pid, qty) ∈ rest.map (fun it => (it.product_id, it.quantity)))
        with h1 | h1
      · have hpid : it.product_id = pid := (congrArg Prod.fst h1).symm
        have hqty : qty = it.quantity := congrArg Prod.snd h1
        have hnot : pid ∉ rest.map (fun it => it.product_id) := by
          rw [← hpid]
          exact hhead
        simp only [lineQty, List.filter_cons, hpid, decide_eq_true_eq,
          if_pos rfl]
        have := lineQty_not_mem pid rest hnot
        simp only [lineQty] at this
        simp [this, hqty]
      · have hpid : ¬ (it.product_id = pid) := by
          intro heq
          have : pid ∈ rest.map (fun it => it.product_id) := by
            rcases List.mem_map.1 h1 with ⟨it', hit', heq'⟩
            exact List.mem_map.2 ⟨it', hit', congrArg Prod.fst heq'⟩
          apply hhead
          show it.product_id ∈ rest.map (fun it => it.product_id)
          rw [heq]
          exact this
        simp only [lineQty, List.filter_cons, decide_eq_true_eq, if_neg hpid]
        simpa [lineQty] using ih hrest h1

/-- Ghost transition: record the registered quantity of every product
registration (keyed by the id it was assigned). -/
def regAfter (s : StoreState) (r : Dict String Int) : Op → Dict String Int
  | .register _ _ q _ => dset r (pidOf s.pcounter) q
  | _ => r

/-- Run the operations, tracking the per-product registered quantity as
ghost state next to the store. -/
def runOpsG (ops : List Op) : StoreState × Dict String Int :=
  ops.foldl (fun p op => (applyOp p.1 op, regAfter p.1 p.2 op)) (initState, [])

theorem runOpsG_fst (ops : List Op) : (runOpsG ops).1 = runOps ops := by
  have hgen : ∀ (l : List Op) (s : StoreState) (r : Dict String Int),
      (l.foldl (fun p op => (applyOp p.1 op, regAfter p.1 p.2 op)) (s, r)).1 =
        l.foldl applyOp s := by
    intro l
    induction l with
    | nil => intro s r; rfl
    | cons op rest ih => intro s r; exact ih _ _
  exact hgen ops initState []

/-- Conservation invariant: every product's current stock plus everything
already committed through orders equals its registered quantity. -/
structure Cons (s : StoreState) (r : Dict String Int) : Prop where
  keys_pid : ∀ e ∈ s.products, ∃ c < s.pcounter, e.1 = pidOf c
  balance : ∀ pid prod, dget s.products pid = some prod →
    committedSum pid s.orders + prod.quantity = (dget r pid).getD 0
  unreg : ∀ pid, dget s.products pid = none → committedSum pid s.orders = 0

theorem dget_some_of_mem_keys {κ α : Type} [DecidableEq κ] {d : Dict κ α}
    {k : κ} (h : k ∈ dkeys d) : ∃ v, dget d k = some v := by
  induction d with
  | nil => cases h
  | cons e rest ih =>
      by_cases he : e.1 = k
      · exact ⟨e.2, by rw [dget, if_pos he]⟩
      · have h' : k ∈ dkeys rest := by
          rcases (by simpa [dkeys] using h : k = e.1 ∨ k ∈ dkeys rest) with
            h1 | h1
          · exact absurd h1.symm he
          · exact h1
        rcases ih h' with ⟨v, hv⟩
        exact ⟨v, by rw [dget, if_neg he]; exact hv⟩

theorem mem_decProducts (cart : Dict String Int) (ps : Dict String Product) :
    ∀ e ∈ decProducts cart ps, ∃ w, (e.1, w) ∈ ps := by
  induction cart generalizing ps with
  | nil =>
      intro e he
      exact ⟨e.2, he⟩
  | cons e0 rest ih =>
      rcases e0 with ⟨p0, q0⟩
      intro e he
      unfold decProducts at he
      cases hp : dget ps p0 with
      | none =>
          rw [hp] at he
          exact ih ps e he
      | some prod =>
          rw [hp] at he
          rcases ih _ e he with ⟨w, hw⟩
          rcases mem_dset hw with h1 | h1
          · refine ⟨prod, ?_⟩
            rw [show e.1 = p0 from congrArg Prod.fst h1]
            exact dget_mem hp
          · exact ⟨w, h1⟩

theorem topup_fixed (u : String) (a : Int) (s : StoreState) :
    (wallet_topup_logic u a s).2.products = s.products ∧
    (wallet_topup_logic u a s).2.orders = s.orders ∧
    (wallet_topup_logic u a s).2.pcounter = s.pcounter := by
  unfold wallet_topup_logic
  dsimp only
  repeat' split
  all_goals exact ⟨rfl, rfl, rfl⟩

theorem cartAdd_fixed (u pid : String) (q : Int) (s : StoreState) :
    (cart_add_logic u pid q s).2.products = s.products ∧
    (cart_add_logic u pid q s).2.orders = s.orders ∧
    (cart_add_logic u pid q s).2.pcounter = s.pcounter := by
  unfold cart_add_logic
  dsimp only
  repeat' split
  all_goals exact ⟨rfl, rfl, rfl⟩

theorem cartRemove_fixed (u pid : String) (q? : Option Int) (s : StoreState) :
    (cart_remove_logic u pid q? s).2.products = s.products ∧
    (cart_remove_logic u pid q? s).2.orders = s.orders ∧
    (cart_remove_logic u pid q? s).2.pcounter = s.pcounter := by
  unfold cart_remove_logic
  dsimp only
  repeat' split
  all_goals exact ⟨rfl, rfl, rfl⟩

theorem cons_of_fixed {s s' : StoreState} {r : Dict String Int} (hc : Cons s r)
    (hp : s'.products = s.products) (ho : s'.orders = s.orders)
    (hpc : s'.pcounter = s.pcounter) : Cons s' r := by
  refine ⟨?_, ?_, ?_⟩
  · rw [hp, hpc]
    exact hc.keys_pid
  · intro pid prod hget
    rw [hp] at hget
    rw [ho]
    exact hc.balance pid prod hget
  · intro pid hnone
    rw [hp] at hnone
    rw [ho]
    exact hc.unreg pid hnone

theorem cons_register (payload : ProductIn) {s : StoreState}
    {r : Dict String Int} (hc : Cons s r) :
    Cons (seller_register_logic payload s).2
      (dset r (pidOf s.pcounter) payload.quantity) := by
  have hfresh : dget s.products (pidOf s.pcounter) = none := by
    refine dget_eq_none ?_
    intro e he heq
    rcases hc.keys_pid e he with ⟨c, hlt, hpe⟩
    have := pidOf_injective (hpe.symm.trans heq)
    omega
  refine ⟨?_, ?_, ?_⟩ <;> simp only [seller_register_logic]
  · intro e he
    rcases mem_dset he with h1 | h1
    · exact ⟨s.pcounter, by omega, congrArg Prod.fst h1⟩
    · rcases hc.keys_pid e h1 with ⟨c, hlt, hpe⟩
      exact ⟨c, by omega, hpe⟩
  · intro pid prod hget
    by_cases hpid : pid = pidOf s.pcounter
    · subst hpid
      rw [dget_dset_self] at hget
      injection hget with hprod
      rw [dget_dset_self]
      have h0 := hc.unreg _ hfresh
      rw [h0, ← hprod]
      simp
    · rw [dget_dset_ne _ _ _ _ hpid] at hget
      rw [dget_dset_ne _ _ _ _ hpid]
      exact hc.balance pid prod hget
  · intro pid hnone
    rcases (dget_dset_eq_none_iff _ _ _ _).1 hnone with ⟨h1, _⟩
    exact hc.unreg pid h1

theorem cons_buy (u pid : String) (q : Int) (k? : Option String)
    {s : StoreState} {r : Dict String Int} (hi : Inv s) (hc : Cons s r) :
    Cons (buy_logic ⟨u, pid, q⟩ k? s).2.1 r := by
  cases htm : tokenMissing k? with
  | true => rw [buy_missing _ _ _ htm]; exact hc
  | false =>
    rcases tokenMissing_eq_false htm with ⟨t, rfl, ht⟩
    cases hidem : dget s.idem t with
    | some r0 => rw [buy_cached _ _ _ _ ht hidem]; exact hc
    | none =>
      rcases hres : (buy_logic ⟨u, pid, q⟩ (some t) s).1 with e | o
      · rw [buy_error_state _ _ _ _ hres]; exact hc
      · rcases buy_ok_fresh _ _ _ _ ht hidem hres with
          ⟨prod, hprod, hq, hstock, hfunds, ho, hstate⟩
        simp only at hprod hstate ho hstock
        rw [hstate]
        have horders : dset s.orders s.ocounter o =
            s.orders ++ [(s.ocounter, o)] :=
          dset_eq_append _ (orders_fresh hi)
        refine ⟨?_, ?_, ?_⟩
        · intro e he
          rcases mem_dset he with h1 | h1
          · rcases hc.keys_pid _ (dget_mem hprod) with ⟨c, hlt, hpe⟩
            refine ⟨c, hlt, ?_⟩
            rw [congrArg Prod.fst h1]
            exact hpe
          · exact hc.keys_pid e h1
        · intro pid' prod' hget
          rw [horders, committedSum_append]
          by_cases hpp : pid' = pid
          · subst hpp
            rw [dget_dset_self] at hget
            injection hget with hpr
            have hbal := hc.balance pid' prod hprod
            have hq' : itemQty pid' o = q := by
              rw [ho]
              simp [itemQty, lineQty]
            rw [hq', ← hpr]
            simp only
            omega
          · rw [dget_dset_ne _ _ _ _ hpp] at hget
            have hne : ¬ (pid = pid') := fun h => hpp h.symm
            have hq0 : itemQty pid' o = 0 := by
              rw [ho]
              simp [itemQty, lineQty, hne]
            rw [hq0]
            have := hc.balance pid' prod' hget
            omega
        · intro pid' hnone
          rw [horders, committedSum_append]
          rcases (dget_dset_eq_none_iff _ _ _ _).1 hnone with ⟨h1, h2⟩
          have hne : ¬ (pid = pid') := fun h => h2 h.symm
          have hq0 : itemQty pid' o = 0 := by
            rw [ho]
            simp [itemQty, lineQty, hne]
          rw [hq0, hc.unreg pid' h1]
          simp

theorem cons_checkout (u : String) (k? : Option String) {s : StoreState}
    {r : Dict String Int} (hi : Inv s) (hc : Cons s r) :
    Cons (cart_checkout_logic u k? s).2.1 r := by
  cases htm : tokenMissing k? with
  | true => rw [checkout_missing _ _ _ htm]; exact hc
  | false =>
    rcases tokenMissing_eq_false htm with ⟨t, rfl, ht⟩
    cases hidem : dget s.idem t with
    | some r0 => rw [checkout_cached _ _ _ _ ht hidem]; exact hc
    | none =>
      rcases hres : (cart_checkout_logic u (some t) s).1 with e | o
      · rw [checkout_error_state _ _ _ _ hres]; exact hc
      · rcases checkout_ok_fresh _ _ _ _ ht hidem hres with
          ⟨total, items, hcne, hlines, hfunds, ho, hstate⟩
        rw [hstate]
        have hnd : (dkeys ((dget s.carts u).getD [])).Nodup :=
          inv_cart_nodup hi u
        have hbounds := checkLines_ok_bounds _ _ _ _ hlines
        have hitems := checkLines_items _ _ _ _ hlines
        have hpidmap : items.map (fun it => it.product_id) =
            dkeys ((dget s.carts u).getD []) := by
          have : (items.map (fun it => (it.product_id, it.quantity))).map
              Prod.fst = dkeys ((dget s.carts u).getD []) := by
            rw [hitems]
            rfl
          rw [← this, List.map_map]
          rfl
        have horders : dset s.orders s.ocounter o =
            s.orders ++ [(s.ocounter, o)] :=
          dset_eq_append _ (orders_fresh hi)
        have hoitems : o.items = items := by rw [ho]
        refine ⟨?_, ?_, ?_⟩
        · intro e he
          rcases mem_decProducts _ _ e he with ⟨w, hw⟩
          exact hc.keys_pid (e.1, w) hw
        · intro pid' prod' hget
          rw [horders, committedSum_append]
          cases hcm : dget ((dget s.carts u).getD []) pid' with
          | some qty =>
              have hmemc : (pid', qty) ∈ (dget s.carts u).getD [] :=
                dget_mem hcm
              rcases hbounds (pid', qty) hmemc with ⟨prod0, hget0, hqpos, hqle⟩
              simp only at hget0 hqpos hqle
              rw [dget_decProducts_mem _ _ _ _ _ hnd hmemc hget0] at hget
              injection hget with hpr
              have hqty : itemQty pid' o = qty := by
                rw [itemQty, hoitems]
                refine lineQty_nodup_mem pid' qty items ?_ ?_
                · rw [hpidmap]
                  exact hnd
                · rw [hitems]
                  exact hmemc
              have hbal := hc.balance pid' prod0 hget0
              rw [hqty, ← hpr]
              simp only
              omega
          | none =>
              have hnotm : pid' ∉ dkeys ((dget s.carts u).getD []) := by
                intro hk
                rcases dget_some_of_mem_keys hk with ⟨v, hv⟩
                rw [hv] at hcm
                cases hcm
              rw [dget_decProducts_not_mem _ _ _ hnotm] at hget
              have hq0 : itemQty pid' o = 0 := by
                rw [itemQty, hoitems]
                refine lineQty_not_mem pid' items ?_
                rw [hpidmap]
                exact hnotm
              rw [hq0]
              have := hc.balance pid' prod' hget
              omega
        · intro pid' hnone
          rw [horders, committedSum_append]
          rw [dget_decProducts_eq_none_iff] at hnone
          have hnotm : pid' ∉ dkeys ((dget s.carts u).getD []) := by
            intro hk
            rcases dget_some_of_mem_keys hk with ⟨v, hv⟩
            rcases hbounds (pid', v) (dget_mem hv) with ⟨prod0, hget0, _, _⟩
            simp only at hget0
            rw [hget0] at hnone
            cases hnone
          have hq0 : itemQty pid' o = 0 := by
            rw [itemQty, hoitems]
            refine lineQty_not_mem pid' items ?_
            rw [hpidmap]
            exact hnotm
          rw [hq0, hc.unreg pid' hnone]
          simp

theorem cons_applyOp (op : Op) {s : StoreState} {r : Dict String Int}
    (hi : Inv s) (hc : Cons s r) : Cons (applyOp s op) (regAfter s r op) := by
  cases op with
  | register n p q c => exact cons_register ⟨n, p, q, c⟩ hc
  | topup u a =>
      rcases topup_fixed u a s with ⟨h1, h2, h3⟩
      exact cons_of_fixed hc h1 h2 h3
  | cartAdd u pid q =>
      rcases cartAdd_fixed u pid q s with ⟨h1, h2, h3⟩
      exact cons_of_fixed hc h1 h2 h3
  | cartRemove u pid q =>
      rcases cartRemove_fixed u pid q s with ⟨h1, h2, h3⟩
      exact cons_of_fixed hc h1 h2 h3
  | buy u pid q k => exact cons_buy u pid q k hi hc
  | checkout u k => exact cons_checkout u k hi hc

theorem cons_foldl (ops : List Op) : ∀ (s : StoreState) (r : Dict String Int),
    Inv s → Cons s r →
    Cons (ops.foldl (fun p op => (applyOp p.1 op, regAfter p.1 p.2 op))
        (s, r)).1
      (ops.foldl (fun p op => (applyOp p.1 op, regAfter p.1 p.2 op))
        (s, r)).2 := by
  induction ops with
  | nil => exact fun s r _ hc => hc
  | cons op rest ih =>
      intro s r hi hc
      exact ih _ _ (inv_applyOp op hi) (cons_applyOp op hi hc)

theorem cons_initState : Cons initState [] := by
  refine ⟨?_, ?_, ?_⟩
  · intro e he; cases he
  · intro pid prod hget; cases hget
  · intro pid _; rfl

theorem cons_runOpsG (ops : List Op) :
    Cons (runOps ops) (runOpsG ops).2 := by
  have h := cons_foldl ops initState [] inv_initState cons_initState
  rwa [show (ops.foldl (fun p op => (applyOp p.1 op, regAfter p.1 p.2 op))
      (initState, [])).1 = runOps ops from runOpsG_fst ops] at h

/-- Whether an operation, if it is a product registration, registers a
non-negative quantity (the code does not validate this itself). -/
def registerNonneg : Op → Bool
  | .register _ _ q _ => 0 ≤ q
  | _ => true

theorem pn_applyOp (op : Op) {s : StoreState}
    (hok : registerNonneg op = true) (hi : Inv s)
    (hpn : ∀ e ∈ s.products, 0 ≤ e.2.quantity) :
    ∀ e ∈ (applyOp s op).products, 0 ≤ e.2.quantity := by
  cases op with
  | register n p q c =>
      have hq : 0 ≤ q := by simpa [registerNonneg] using hok
      intro e he
      simp only [applyOp, seller_register_logic] at he
      rcases mem_dset he with h1 | h1
      · rw [h1]
        exact hq
      · exact hpn e h1
  | topup u a =>
      rw [show (applyOp s (.topup u a)).products = s.products from
        (topup_fixed u a s).1]
      exact hpn
  | cartAdd u pid q =>
      rw [show (applyOp s (.cartAdd u pid q)).products = s.products from
        (cartAdd_fixed u pid q s).1]
      exact hpn
  | cartRemove u pid q =>
      rw [show (applyOp s (.cartRemove u pid q)).products = s.products from
        (cartRemove_fixed u pid q s).1]
      exact hpn
  | buy u pid q k =>
      show ∀ e ∈ (buy_logic ⟨u, pid, q⟩ k s).2.1.products, 0 ≤ e.2.quantity
      cases htm : tokenMissing k with
      | true => rw [buy_missing _ _ _ htm]; exact hpn
      | false =>
        rcases tokenMissing_eq_false htm with ⟨t, rfl, ht⟩
        cases hidem : dget s.idem t with
        | some r0 => rw [buy_cached _ _ _ _ ht hidem]; exact hpn
        | none =>
          rcases hres : (buy_logic ⟨u, pid, q⟩ (some t) s).1 with e | o
          · rw [buy_error_state _ _ _ _ hres]; exact hpn
          · rcases buy_ok_fresh _ _ _ _ ht hidem hres with
              ⟨prod, hprod, hq, hstock, hfunds, ho, hstate⟩
            simp only at hprod hstate hstock
            rw [hstate]
            intro e he
            rcases mem_dset he with h1 | h1
            · rw [h1]
              simp only
              omega
            · exact hpn e h1
  | checkout u k =>
      show ∀ e ∈ (cart_checkout_logic u k s).2.1.products, 0 ≤ e.2.quantity
      cases htm : tokenMissing k with
      | true => rw [checkout_missing _ _ _ htm]; exact hpn
      | false =>
        rcases tokenMissing_eq_false htm with ⟨t, rfl, ht⟩
        cases hidem : dget s.idem t with
        | some r0 => rw [checkout_cached _ _ _ _ ht hidem]; exact hpn
        | none =>
          rcases hres : (cart_checkout_logic u (some t) s).1 with e | o
          · rw [checkout_error_state _ _ _ _ hres]; exact hpn
          · rcases checkout_ok_fresh _ _ _ _ ht hidem hres with
              ⟨total, items, hcne, hlines, hfunds, ho, hstate⟩
            rw [hstate]
            have hbounds := checkLines_ok_bounds _ _ _ _ hlines
            refine decProducts_nonneg _ _ (inv_cart_nodup hi u) hpn ?_
            intro pq hpq prod hget
            rcases hbounds pq hpq with ⟨prod0, hget0, _, hle⟩
            rw [hget0] at hget
            injection hget with hpr
            rw [← hpr]
            exact hle

theorem pn_foldl (ops : List Op) : ∀ s : StoreState, Inv s →
    (∀ e ∈ s.products, 0 ≤ e.2.quantity) →
    (∀ op ∈ ops, registerNonneg op = true) →
    ∀ e ∈ (ops.foldl applyOp s).products, 0 ≤ e.2.quantity := by
  induction ops with
  | nil => exact fun s _ hpn _ => hpn
  | cons op rest ih =>
      intro s hi hpn hok
      exact ih _ (inv_applyOp op hi)
        (pn_applyOp op (hok op (.head _)) hi hpn)
        (fun op' hop' => hok op' (.tail _ hop'))

/-! ### Claim theorems -/

/-- Claim C1: checkout is atomic on failure — if `cart_checkout_logic`
fails for any reason, then no product quantity, no wallet balance, no cart,
no order and no idempotency entry changes at all. -/
theorem claim_C1_checkout_atomic_on_failure (u : String) (k? : Option String)
    (s : StoreState) (e : HTTPException)
    (h : (cart_checkout_logic u k? s).1 = .error e) :
    (cart_checkout_logic u k? s).2.1.products = s.products ∧
    (cart_checkout_logic u k? s).2.1.wallets = s.wallets ∧
    (cart_checkout_logic u k? s).2.1.carts = s.carts ∧
    (cart_checkout_logic u k? s).2.1.orders = s.orders ∧
    (cart_checkout_logic u k? s).2.1.idem = s.idem ∧
    (cart_checkout_logic u k? s).2.1 = s := by
  have h2 := checkout_error_state u k? s e h
  rw [h2]
  exact ⟨rfl, rfl, rfl, rfl, rfl, rfl⟩

/-- Witness for C1: checking out an empty cart fails and changes nothing. -/
theorem claim_C1_witness :
    (cart_checkout_logic "bob" (some "k") initState).2.1.products
        = initState.products ∧
    (cart_checkout_logic "bob" (some "k") initState).2.1.wallets
        = initState.wallets ∧
    (cart_checkout_logic "bob" (some "k") initState).2.1.carts
        = initState.carts ∧
    (cart_checkout_logic "bob" (some "k") initState).2.1.orders
        = initState.orders ∧
    (cart_checkout_logic "bob" (some "k") initState).2.1.idem
        = initState.idem ∧
    (cart_checkout_logic "bob" (some "k") initState).2.1 = initState :=
  claim_C1_checkout_atomic_on_failure "bob" (some "k") initState
    ⟨400, "cart empty"⟩ rfl

/-- Claim C5: wallet balances are never negative in any state reachable by
any sequence of public operations from the empty initial state. -/
theorem claim_C5_wallet_never_negative (ops : List Op) :
    ∀ e ∈ (runOps ops).wallets, 0 ≤ e.2 :=
  (inv_runOps ops).wallets_nonneg

/-- Witness for C5 at a concrete operation sequence and wallet entry. -/
theorem claim_C5_witness :
    ("alice", (5000 : Int)) ∈
        (runOps [Op.topup "alice" 5000]).wallets ∧
    0 ≤ (("alice", (5000 : Int))).2 :=
  ⟨by decide, claim_C5_wallet_never_negative [Op.topup "alice" 5000]
    ("alice", 5000) (by decide)⟩

/-- Claim C10: a failed `buy` or `checkout` call does not consume its
idempotency token — the idempotency cache is unchanged on every failure
path, so a retry re-executes the operation from scratch. -/
theorem claim_C10_failed_calls_keep_cache (req : BuyRequest)
    (kb : Option String) (s₁ : StoreState) (e₁ : HTTPException) (u : String)
    (kc : Option String) (s₂ : StoreState) (e₂ : HTTPException)
    (hb : (buy_logic req kb s₁).1 = .error e₁)
    (hc : (cart_checkout_logic u kc s₂).1 = .error e₂) :
    (buy_logic req kb s₁).2.1.idem = s₁.idem ∧
    (cart_checkout_logic u kc s₂).2.1.idem = s₂.idem := by
  constructor
  · rw [buy_error_state _ _ _ _ hb]
  · rw [checkout_error_state _ _ _ _ hc]

/-- Witness for C10: a buy that fails with insufficient funds and a
checkout of an empty cart leave the cache unchanged, and the buy retried
with the same token after a top-up succeeds. -/
theorem claim_C10_witness :
    (buy_logic ⟨"alice", "p", 2⟩ (some "kx")
        (runOps [Op.register "w" 1000 5 "general"])).2.1.idem =
      (runOps [Op.register "w" 1000 5 "general"]).idem ∧
    (cart_checkout_logic "bob" (some "kx") initState).2.1.idem =
      initState.idem ∧
    ((buy_logic ⟨"alice", "p", 2⟩ (some "kx")
        (runOps [Op.register "w" 1000 5 "general",
                 Op.topup "alice" 5000])).1 =
      .ok { id := 0, user_email := "alice",
            items := [{ product_id := "p", name := "w", quantity := 2,
                        line_total_cents := 2000 }],
            total_cents := 2000, status := "placed" }) := by
  have h := claim_C10_failed_calls_keep_cache ⟨"alice", "p", 2⟩ (some "kx")
    (runOps [Op.register "w" 1000 5 "general"]) ⟨402, "insufficient_funds"⟩
    "bob" (some "kx") initState ⟨400, "cart empty"⟩ rfl rfl
  exact ⟨h.1, h.2, rfl⟩

/-- Claim C7: lock discipline — `buy_logic` and `cart_checkout_logic` sort
their full key set, acquire strictly in that sorted order before any
release, release in reverse acquisition order on every path, and never
leave a lock held (the trace is exactly acquires-then-releases with the
releases the reverse of the acquires). -/
theorem claim_C7_lock_discipline (req : BuyRequest) (k? : Option String)
    (s : StoreState) (u : String) (kc? : Option String) (sc : StoreState) :
    ((buy_logic req k? s).2.2 =
        (acquires (buy_logic req k? s).2.2).map LockEvent.acquire ++
        (releases (buy_logic req k? s).2.2).map LockEvent.release ∧
      releases (buy_logic req k? s).2.2 =
        (acquires (buy_logic req k? s).2.2).reverse ∧
      List.Sorted (· ≤ ·) (acquires (buy_logic req k? s).2.2) ∧
      (acquires (buy_logic req k? s).2.2 = [] ∨
        (acquires (buy_logic req k? s).2.2).Perm (buyKeys req))) ∧
    ((cart_checkout_logic u kc? sc).2.2 =
        (acquires (cart_checkout_logic u kc? sc).2.2).map
          LockEvent.acquire ++
        (releases (cart_checkout_logic u kc? sc).2.2).map
          LockEvent.release ∧
      releases (cart_checkout_logic u kc? sc).2.2 =
        (acquires (cart_checkout_logic u kc? sc).2.2).reverse ∧
      List.Sorted (· ≤ ·) (acquires (cart_checkout_logic u kc? sc).2.2) ∧
      (acquires (cart_checkout_logic u kc? sc).2.2 = [] ∨
        (acquires (cart_checkout_logic u kc? sc).2.2).Perm
          (checkoutKeys u ((dget sc.carts u).getD [])))) := by
  constructor
  · rcases buy_trace_shape req k? s with h | h
    · rw [h]
      exact ⟨rfl, rfl, List.sorted_nil, .inl rfl⟩
    · rw [h]
      have ha : acquires ((buyLockOrder req).map LockEvent.acquire ++
          ((buyLockOrder req).reverse).map LockEvent.release) =
          buyLockOrder req := by
        rw [acquires_append, acquires_map_acquire, acquires_map_release,
          List.append_nil]
      have hr : releases ((buyLockOrder req).map LockEvent.acquire ++
          ((buyLockOrder req).reverse).map LockEvent.release) =
          (buyLockOrder req).reverse := by
        rw [releases_append, releases_map_acquire, releases_map_release,
          List.nil_append]
      rw [ha, hr]
      exact ⟨rfl, rfl, buyLockOrder_sorted req, .inr (buyLockOrder_perm req)⟩
  · rcases checkout_trace_shape u kc? sc with h | h
    · rw [h]
      exact ⟨rfl, rfl, List.sorted_nil, .inl rfl⟩
    · rw [h]
      have ha : acquires ((checkoutLockOrder u
            ((dget sc.carts u).getD [])).map LockEvent.acquire ++
          ((checkoutLockOrder u ((dget sc.carts u).getD [])).reverse).map
            LockEvent.release) =
          checkoutLockOrder u ((dget sc.carts u).getD []) := by
        rw [acquires_append, acquires_map_acquire, acquires_map_release,
          List.append_nil]
      have hr : releases ((checkoutLockOrder u
            ((dget sc.carts u).getD [])).map LockEvent.acquire ++
          ((checkoutLockOrder u ((dget sc.carts u).getD [])).reverse).map
            LockEvent.release) =
          (checkoutLockOrder u ((dget sc.carts u).getD [])).reverse := by
        rw [releases_append, releases_map_acquire, releases_map_release,
          List.nil_append]
      rw [ha, hr]
      exact ⟨rfl, rfl, checkoutLockOrder_sorted u _,
        .inr (checkoutLockOrder_perm u _)⟩

/-- Claim C8: deadlock freedom — in any pool of concurrent `buy`/`checkout`
transactions whose key lists come from the sorted lock orders of the code,
holding disjoint lock sets, if some transaction has not finished then some
transaction can make progress: no cycle of waiting operations can form. -/
theorem claim_C8_deadlock_freedom (ts : List Txn)
    (hkeys : ∀ t ∈ ts, (∃ req, t.keys = buyLockOrder req) ∨
      (∃ u cart, (dkeys cart).Nodup ∧ t.keys = checkoutLockOrder u cart))
    (_hdisj : ∀ i j : Fin ts.length, i ≠ j →
      ∀ k ∈ (ts.get i).held, k ∉ (ts.get j).held)
    (hne : ∃ i : Fin ts.length, ¬ (ts.get i).complete) :
    ∃ i : Fin ts.length, canStep ts i := by
  refine sorted_pool_progress ts ?_ hne
  intro t ht
  rcases hkeys t ht with ⟨req, hk⟩ | ⟨u, cart, hnd, hk⟩
  · rw [hk]
    exact buyLockOrder_sorted_lt req
  · rw [hk]
    exact checkoutLockOrder_sorted_lt u cart hnd

theorem buyLockOrder_ab : buyLockOrder ⟨"a", "p", 1⟩ =
    ["product:p", "wallet:a"] := by
  have h1 : ("product:" ++ "p" : String) ≤ "wallet:" ++ "a" :=
    le_of_lt (by rw [String.lt_iff_toList_lt]; decide)
  unfold buyLockOrder buyKeys
  simp only [List.insertionSort, List.orderedInsert]
  rw [if_pos h1]
  decide

theorem checkoutLockOrder_b : checkoutLockOrder "b" [("p", 1)] =
    ["product:p", "wallet:b"] := by
  have h1 : ("product:" ++ "p" : String) ≤ "wallet:" ++ "b" :=
    le_of_lt (by rw [String.lt_iff_toList_lt]; decide)
  unfold checkoutLockOrder checkoutKeys
  simp only [List.insertionSort, List.orderedInsert, List.map_cons,
    List.map_nil, List.cons_append, List.nil_append]
  rw [if_pos h1]
  decide

/-- Witness for C8: a buyer of product `p` holding its product lock and a
checkout of a cart sharing product `p`; the pool can always progress. -/
theorem claim_C8_witness :
    ∃ i : Fin ([⟨["product:p", "wallet:a"], 1⟩,
        ⟨["product:p", "wallet:b"], 0⟩] : List Txn).length,
      canStep [⟨["product:p", "wallet:a"], 1⟩,
        ⟨["product:p", "wallet:b"], 0⟩] i := by
  refine claim_C8_deadlock_freedom _ ?_ (by decide) (by decide)
  intro t ht
  rcases List.mem_cons.1 ht with h | h
  · exact .inl ⟨⟨"a", "p", 1⟩, by rw [h, buyLockOrder_ab]⟩
  · rcases List.mem_cons.1 h with h2 | h2
    · exact .inr ⟨"b", [("p", 1)], by decide, by rw [h2, checkoutLockOrder_b]⟩
    · cases h2

/-- Claim C2: idempotent replay — in any reachable state with a result
cached under token `t`, `buy` and `checkout` with token `t` return the
cached result verbatim, mutate nothing and take no locks; and a successful
fresh-token `buy` replayed with the same token and arguments returns the
identical result while leaving the once-mutated state unchanged. -/
theorem claim_C2_idempotent_replay (s : StoreState) (t : String)
    (req : BuyRequest) (u : String) (hreach : Reachable s) :
    (∀ r, dget s.idem t = some r →
      buy_logic req (some t) s = (.ok r, s, []) ∧
      cart_checkout_logic u (some t) s = (.ok r, s, [])) ∧
    (∀ o s' tr, dget s.idem t = none →
      buy_logic req (some t) s = (.ok o, s', tr) →
      buy_logic req (some t) s' = (.ok o, s', [])) := by
  constructor
  · intro r hc
    have ht : t ≠ "" := (inv_reachable hreach).idem_ne (t, r) (dget_mem hc)
    exact ⟨buy_cached req t s r ht hc, checkout_cached u t s r ht hc⟩
  · intro o s' tr hfresh h
    by_cases ht : t = ""
    · subst ht
      rw [buy_missing req (some "") s rfl] at h
      exact absurd (congrArg Prod.fst h) (by simp)
    · have h1 : (buy_logic req (some t) s).1 = .ok o := by rw [h]
      rcases buy_ok_fresh req t s o ht hfresh h1 with
        ⟨prod, _, _, _, _, _, hstate⟩
      have hs' : (buy_logic req (some t) s).2.1 = s' := by rw [h]
      have hidem' : dget s'.idem t = some o := by
        rw [← hs', hstate]
        exact dget_dset_self _ _ _
      exact buy_cached req t s' o ht hidem'

/-- A reachable state in which order `k1` is already cached: the result of
registering a product, topping up alice, and buying twice of it. -/
def replayState : StoreState :=
  runOps [Op.register "widget" 1000 5 "general", Op.topup "alice" 5000,
    Op.buy "alice" "p" 2 (some "k1")]

/-- The order the first `buy` with token `k1` committed. -/
def replayOrder : Order :=
  { id := 0, user_email := "alice",
    items := [{ product_id := "p", name := "widget", quantity := 2,
                line_total_cents := 2000 }],
    total_cents := 2000, status := "placed" }

/-- Witness for C2: replaying token `k1` returns the cached order verbatim
with no state change and no locking. -/
theorem claim_C2_witness :
    buy_logic ⟨"alice", "p", 2⟩ (some "k1") replayState =
      (.ok replayOrder, replayState, []) ∧
    cart_checkout_logic "alice" (some "k1") replayState =
      (.ok replayOrder, replayState, []) :=
  (claim_C2_idempotent_replay replayState "k1" ⟨"alice", "p", 2⟩ "alice"
    ⟨[Op.register "widget" 1000 5 "general", Op.topup "alice" 5000,
      Op.buy "alice" "p" 2 (some "k1")], rfl⟩).1 replayOrder rfl

/-- Claim C3: successful-buy postcondition — a fresh-token `buy` that
succeeds decrements exactly the bought product's quantity by the bought
amount (price, name, category unchanged), debits exactly the buyer's wallet
by price times quantity, appends exactly one new `placed` order with one
line item whose total is the sum of its line totals, touches no other
product, wallet or cart, and caches the result under the token. -/
theorem claim_C3_buy_success_postcondition (req : BuyRequest) (t : String)
    (s : StoreState) (o : Order) (hreach : Reachable s)
    (hfresh : dget s.idem t = none)
    (h : (buy_logic req (some t) s).1 = .ok o) :
    ∃ prod, dget s.products req.product_id = some prod ∧
      dget (buy_logic req (some t) s).2.1.products req.product_id =
        some { prod with quantity := prod.quantity - req.quantity } ∧
      (∀ pid, pid ≠ req.product_id →
        dget (buy_logic req (some t) s).2.1.products pid =
          dget s.products pid) ∧
      dget (buy_logic req (some t) s).2.1.wallets req.user_email =
        some ((dget s.wallets req.user_email).getD 0 -
          prod.price_cents * req.quantity) ∧
      (∀ w, w ≠ req.user_email →
        dget (buy_logic req (some t) s).2.1.wallets w = dget s.wallets w) ∧
      (buy_logic req (some t) s).2.1.carts = s.carts ∧
      o = { id := s.ocounter, user_email := req.user_email,
            items := [{ product_id := req.product_id, name := prod.name,
                        quantity := req.quantity,
                        line_total_cents :=
                          prod.price_cents * req.quantity }],
            total_cents := prod.price_cents * req.quantity,
            status := "placed" } ∧
      o.total_cents = (o.items.map (fun it => it.line_total_cents)).sum ∧
      (buy_logic req (some t) s).2.1.orders =
        s.orders ++ [(s.ocounter, o)] ∧
      dget s.orders s.ocounter = none ∧
      (buy_logic req (some t) s).2.1.idem = dset s.idem t o := by
  have ht : t ≠ "" := by
    intro he
    subst he
    rw [buy_missing req (some "") s rfl] at h
    simp at h
  rcases buy_ok_fresh req t s o ht hfresh h with
    ⟨prod, hprod, hq, hstock, hfunds, ho, hstate⟩
  refine ⟨prod, hprod, ?_, ?_, ?_, ?_, ?_, ho, ?_, ?_,
    orders_fresh (inv_reachable hreach), ?_⟩
  · rw [hstate]
    exact dget_dset_self _ _ _
  · intro pid hpid
    rw [hstate]
    exact dget_dset_ne _ _ _ _ hpid
  · rw [hstate]
    exact dget_dset_self _ _ _
  · intro w hw
    rw [hstate]
    exact dget_dset_ne _ _ _ _ hw
  · rw [hstate]
  · rw [ho]
    simp
  · rw [hstate]
    exact dset_eq_append _ (orders_fresh (inv_reachable hreach))
  · rw [hstate]

/-- The state of the spec's concrete scenario: a 1000-cent product with
stock 5 registered, and alice's wallet topped up with 5000. -/
def aliceState : StoreState :=
  runOps [Op.register "widget" 1000 5 "general", Op.topup "alice" 5000]

/-- The order that `buy("alice", P, 2, "k1")` produces in that state. -/
def aliceOrder : Order :=
  { id := 0, user_email := "alice",
    items := [{ product_id := "p", name := "widget", quantity := 2,
                line_total_cents := 2000 }],
    total_cents := 2000, status := "placed" }

/-- Witness for C3, the spec's concrete scenario: after topping up alice
with 5000 and buying 2 units of a price-1000 quantity-5 product, the order
total is 2000, the wallet balance is 3000, and the product quantity is 3. -/
theorem claim_C3_witness :
    (∃ prod, dget aliceState.products "p" = some prod ∧
      dget (buy_logic ⟨"alice", "p", 2⟩ (some "k1") aliceState).2.1.products
          "p" = some { prod with quantity := prod.quantity - 2 } ∧
      (∀ pid, pid ≠ "p" →
        dget (buy_logic ⟨"alice", "p", 2⟩ (some "k1")
            aliceState).2.1.products pid = dget aliceState.products pid) ∧
      dget (buy_logic ⟨"alice", "p", 2⟩ (some "k1") aliceState).2.1.wallets
          "alice" =
        some ((dget aliceState.wallets "alice").getD 0 -
          prod.price_cents * 2) ∧
      (∀ w, w ≠ "alice" →
        dget (buy_logic ⟨"alice", "p", 2⟩ (some "k1")
            aliceState).2.1.wallets w = dget aliceState.wallets w) ∧
      (buy_logic ⟨"alice", "p", 2⟩ (some "k1") aliceState).2.1.carts =
        aliceState.carts ∧
      aliceOrder =
        { id := aliceState.ocounter, user_email := "alice",
          items := [{ product_id := "p", name := prod.name, quantity := 2,
                      line_total_cents := prod.price_cents * 2 }],
          total_cents := prod.price_cents * 2, status := "placed" } ∧
      aliceOrder.total_cents =
        (aliceOrder.items.map (fun it => it.line_total_cents)).sum ∧
      (buy_logic ⟨"alice", "p", 2⟩ (some "k1") aliceState).2.1.orders =
        aliceState.orders ++ [(aliceState.ocounter, aliceOrder)] ∧
      dget aliceState.orders aliceState.ocounter = none ∧
      (buy_logic ⟨"alice", "p", 2⟩ (some "k1") aliceState).2.1.idem =
        dset aliceState.idem "k1" aliceOrder) ∧
    aliceOrder.total_cents = 2000 ∧
    dget (buy_logic ⟨"alice", "p", 2⟩ (some "k1") aliceState).2.1.wallets
        "alice" = some 3000 ∧
    dget (buy_logic ⟨"alice", "p", 2⟩ (some "k1") aliceState).2.1.products
        "p" = some { id := "p", name := "widget", price_cents := 1000,
                     quantity := 3, category := "general" } :=
  ⟨claim_C3_buy_success_postcondition ⟨"alice", "p", 2⟩ "k1" aliceState
      aliceOrder
      ⟨[Op.register "widget" 1000 5 "general", Op.topup "alice" 5000], rfl⟩
      rfl rfl,
    rfl, rfl, rfl⟩

/-- Counterexample to C4 as stated: `seller_register_logic` stores the
payload quantity without validating it, so a single `register_product` call
with quantity `-1` reaches a state whose product quantity is negative. -/
theorem claim_C4_counterexample :
    ¬ (∀ ops : List Op, ∀ e ∈ (runOps ops).products, 0 ≤ e.2.quantity) := by
  intro h
  have h2 := h [Op.register "x" 100 (-1) "general"]
    ("p", { id := "p", name := "x", price_cents := 100, quantity := -1,
            category := "general" }) (by decide)
  exact absurd h2 (by decide)

/-- The operation list of the no-oversell scenario: register a product with
stock 5, top alice up, and buy 2 of it. -/
def oversellOps : List Op :=
  [Op.register "widget" 1000 5 "general", Op.topup "alice" 5000,
    Op.buy "alice" "p" 2 (some "k1")]

/-- Claim C4, amended: provided every `register_product` call in the
sequence registers a non-negative quantity, every product quantity in every
reachable state is non-negative, and consequently the total quantity
committed across all succeeded orders for a product never exceeds the
quantity it was registered with (the ghost registration record of
`runOpsG`). -/
theorem claim_C4_amended_no_negative_stock (ops : List Op)
    (h : ∀ op ∈ ops, registerNonneg op = true) :
    (∀ e ∈ (runOps ops).products, 0 ≤ e.2.quantity) ∧
    (∀ pid prod, dget (runOps ops).products pid = some prod →
      committedSum pid (runOps ops).orders ≤
        (dget (runOpsG ops).2 pid).getD 0) := by
  have hpn := pn_foldl ops initState inv_initState
    (by intro e he; cases he) h
  refine ⟨hpn, ?_⟩
  intro pid prod hget
  have hcons := cons_runOpsG ops
  have hbal := hcons.balance pid prod hget
  have hq := hpn (pid, prod) (dget_mem hget)
  simp only at hq
  omega

/-- The catalog record of the scenario's product after the buy. -/
def oversellProduct : Product :=
  { id := "p", name := "widget", price_cents := 1000, quantity := 3,
    category := "general" }

/-- Witness for the amended C4 at the concrete buy scenario. -/
theorem claim_C4_witness :
    (0 : Int) ≤ (("p", oversellProduct)).2.quantity ∧
    committedSum "p" (runOps oversellOps).orders ≤
      (dget (runOpsG oversellOps).2 "p").getD 0 := by
  have h := claim_C4_amended_no_negative_stock oversellOps (by decide)
  exact ⟨h.1 ("p", oversellProduct) (by decide),
    h.2 "p" oversellProduct rfl⟩

/-- Claim C9: `remove_from_cart` semantics — for a product present in the
cart, an omitted quantity removes the line entirely, a requested quantity
at least the present quantity removes the line entirely rather than
erroring, and a smaller positive quantity reduces the line by that amount;
and in every reachable state no zero or negative quantity entry persists in
any cart. -/
theorem claim_C9_cart_remove_semantics (u pid : String) (s : StoreState) :
    (∀ cur, dget ((dget s.carts u).getD []) pid = some cur →
      ((cart_remove_logic u pid none s).1 =
          .ok (ddel ((dget s.carts u).getD []) pid) ∧
        (cart_remove_logic u pid none s).2.carts =
          dset s.carts u (ddel ((dget s.carts u).getD []) pid)) ∧
      (∀ q : Int, 0 < q → cur ≤ q →
        (cart_remove_logic u pid (some q) s).1 =
          .ok (ddel ((dget s.carts u).getD []) pid) ∧
        (cart_remove_logic u pid (some q) s).2.carts =
          dset s.carts u (ddel ((dget s.carts u).getD []) pid)) ∧
      (∀ q : Int, 0 < q → q < cur →
        (cart_remove_logic u pid (some q) s).1 =
          .ok (dset ((dget s.carts u).getD []) pid (cur - q)) ∧
        (cart_remove_logic u pid (some q) s).2.carts =
          dset s.carts u (dset ((dget s.carts u).getD []) pid (cur - q)))) ∧
    (Reachable s → ∀ c ∈ s.carts, ∀ e ∈ c.2, 0 < e.2) := by
  constructor
  · intro cur hcur
    cases hg : dget s.carts u with
    | none =>
        rw [hg] at hcur
        simp [dget] at hcur
    | some c0 =>
        rw [hg] at hcur
        simp only [Option.getD_some] at hcur
        refine ⟨?_, ?_, ?_⟩
        · unfold cart_remove_logic
          simp only [hg, Option.getD_some, hcur]
          exact ⟨trivial, trivial⟩
        · intro q hq0 hqc
          unfold cart_remove_logic
          simp only [hg, Option.getD_some, hcur]
          rw [if_neg (by omega), if_pos hqc]
          exact ⟨rfl, rfl⟩
        · intro q hq0 hqc
          unfold cart_remove_logic
          simp only [hg, Option.getD_some, hcur]
          rw [if_neg (by omega), if_neg (by omega)]
          exact ⟨rfl, rfl⟩
  · intro hr
    exact (inv_reachable hr).carts_pos

/-- A reachable state with cart `{p: 5}` for alice. -/
def cartState : StoreState :=
  runOps [Op.register "widget" 1000 9 "general", Op.cartAdd "alice" "p" 5]

/-- Witness for C9: with cart quantity 5 present, omitted quantity and quantity 7
remove the line; quantity 2 leaves 3; and the cart entry is positive. -/
theorem claim_C9_witness :
    (cart_remove_logic "alice" "p" none cartState).1 = .ok [] ∧
    (cart_remove_logic "alice" "p" (some 7) cartState).1 = .ok [] ∧
    (cart_remove_logic "alice" "p" (some 2) cartState).1 =
      .ok [("p", 3)] ∧
    0 < (("p", (5 : Int))).2 := by
  have h := (claim_C9_cart_remove_semantics "alice" "p" cartState).1 5 rfl
  have hinv := (claim_C9_cart_remove_semantics "alice" "p" cartState).2
    ⟨[Op.register "widget" 1000 9 "general", Op.cartAdd "alice" "p" 5], rfl⟩
  exact ⟨h.1.1, (h.2.1 7 (by decide) (by decide)).1,
    (h.2.2 2 (by decide) (by decide)).1,
    hinv ("alice", [("p", 5)]) (by decide) ("p", 5) (by decide)⟩

/-- Claim C6: buy raises-iff with distinct error kinds and fixed
precedence — for a token with no cached entry, `buy` fails with the
missing-token error iff the token is absent or empty; otherwise with the
quantity validation error iff quantity ≤ 0; otherwise with not-found iff
the product is unregistered; otherwise with insufficient stock iff stock is
short; otherwise with insufficient funds iff the balance is short;
otherwise it succeeds — and the five error kinds are pairwise distinct. -/
theorem claim_C6_buy_error_taxonomy (req : BuyRequest) (k? : Option String)
    (s : StoreState)
    (hfresh : ∀ t, k? = some t → dget s.idem t = none) :
    ((buy_logic req k? s).1 =
        .error ⟨400, "Idempotency-Key header required"⟩ ↔
      (k? = none ∨ k? = some "")) ∧
    (∀ t, k? = some t → t ≠ "" →
      (((buy_logic req k? s).1 = .error ⟨400, "quantity must be > 0"⟩) ↔
        req.quantity ≤ 0) ∧
      (0 < req.quantity →
        (((buy_logic req k? s).1 = .error ⟨404, "product not found"⟩) ↔
          dget s.products req.product_id = none) ∧
        (∀ prod, dget s.products req.product_id = some prod →
          (((buy_logic req k? s).1 =
              .error ⟨409, "insufficient_stock"⟩) ↔
            prod.quantity < req.quantity) ∧
          (req.quantity ≤ prod.quantity →
            (((buy_logic req k? s).1 =
                .error ⟨402, "insufficient_funds"⟩) ↔
              (dget s.wallets req.user_email).getD 0 <
                prod.price_cents * req.quantity) ∧
            (prod.price_cents * req.quantity ≤
                (dget s.wallets req.user_email).getD 0 →
              ∃ o, (buy_logic req k? s).1 = .ok o))))) ∧
    ([(⟨400, "Idempotency-Key header required"⟩ : HTTPException),
      ⟨400, "quantity must be > 0"⟩, ⟨404, "product not found"⟩,
      ⟨409, "insufficient_stock"⟩,
      ⟨402, "insufficient_funds"⟩].Pairwise (· ≠ ·)) := by
  cases k? with
  | none =>
      have hres : (buy_logic req none s).1 =
          .error ⟨400, "Idempotency-Key header required"⟩ := by
        rw [buy_missing req none s rfl]
      refine ⟨by simp [hres], ?_, by decide⟩
      intro t ht
      cases ht
  | some t =>
      by_cases ht : t = ""
      · subst ht
        have hres : (buy_logic req (some "") s).1 =
            .error ⟨400, "Idempotency-Key header required"⟩ := by
          rw [buy_missing req (some "") s rfl]
        refine ⟨by simp [hres], ?_, by decide⟩
        intro t' ht' hne'
        injection ht' with h''
        exact absurd h''.symm hne'
      · have hfr := hfresh t rfl
        have htm : tokenMissing (some t) = false := by simp [tokenMissing, ht]
        by_cases hq : req.quantity ≤ 0
        · have hres : (buy_logic req (some t) s).1 =
              .error ⟨400, "quantity must be > 0"⟩ := by
            unfold buy_logic
            simp [htm, hfr, hq]
          refine ⟨by simp [hres, ht], ?_, by decide⟩
          intro t' ht' hne'
          injection ht' with h''
          subst h''
          refine ⟨by simp [hres, hq], ?_⟩
          intro hqpos
          omega
        · cases hprod : dget s.products req.product_id with
          | none =>
              have hres : (buy_logic req (some t) s).1 =
                  .error ⟨404, "product not found"⟩ := by
                unfold buy_logic
                simp [htm, hfr, hq, hprod]
              refine ⟨by simp [hres, ht], ?_, by decide⟩
              intro t' ht' hne'
              injection ht' with h''
              subst h''
              refine ⟨by simp [hres, hq], ?_⟩
              intro hqpos
              refine ⟨by simp [hres, hprod], ?_⟩
              intro prod hprod'
              exact Option.noConfusion hprod'
          | some prod =>
              by_cases hs : prod.quantity < req.quantity
              · have hres : (buy_logic req (some t) s).1 =
                    .error ⟨409, "insufficient_stock"⟩ := by
                  unfold buy_logic
                  simp [htm, hfr, hq, hprod, hs]
                refine ⟨by simp [hres, ht], ?_, by decide⟩
                intro t' ht' hne'
                injection ht' with h''
                subst h''
                refine ⟨by simp [hres, hq], ?_⟩
                intro hqpos
                refine ⟨by simp [hres, hprod], ?_⟩
                intro prod' hprod'
                have hpr := Option.some.inj hprod'
                subst hpr
                refine ⟨by simp [hres, hs], ?_⟩
                intro hstock'
                omega
              · by_cases hb : (dget s.wallets req.user_email).getD 0 <
                    prod.price_cents * req.quantity
                · have hres : (buy_logic req (some t) s).1 =
                      .error ⟨402, "insufficient_funds"⟩ := by
                    unfold buy_logic
                    simp [htm, hfr, hq, hprod, hs, hb]
                  refine ⟨by simp [hres, ht], ?_, by decide⟩
                  intro t' ht' hne'
                  injection ht' with h''
                  subst h''
                  refine ⟨by simp [hres, hq], ?_⟩
                  intro hqpos
                  refine ⟨by simp [hres, hprod], ?_⟩
                  intro prod' hprod'
                  have hpr := Option.some.inj hprod'
                  subst hpr
                  refine ⟨by simp [hres]; omega, ?_⟩
                  intro hstock'
                  refine ⟨by simp [hres, hb], ?_⟩
                  intro hfunds'
                  omega
                · have hres : (buy_logic req (some t) s).1 =
                      .ok
                        { id := s.ocounter, user_email := req.user_email,
                          items := [{ product_id := req.product_id,
                                      name := prod.name,
                                      quantity := req.quantity,
                                      line_total_cents := prod.price_cents *
                                        req.quantity }],
                          total_cents := prod.price_cents * req.quantity,
                          status := "placed" } := by
                    unfold buy_logic
                    simp [htm, hfr, hq, hprod, hs, hb]
                  refine ⟨by simp [hres, ht], ?_, by decide⟩
                  intro t' ht' hne'
                  injection ht' with h''
                  subst h''
                  refine ⟨by simp [hres, hq], ?_⟩
                  intro hqpos
                  refine ⟨by simp [hres, hprod], ?_⟩
                  intro prod' hprod'
                  have hpr := Option.some.inj hprod'
                  subst hpr
                  refine ⟨by simp [hres]; omega, ?_⟩
                  intro hstock'
                  refine ⟨by simp [hres]; omega, ?_⟩
                  intro hfunds'
                  exact ⟨_, hres⟩

/-- A reachable state where alice's balance (500) cannot cover two units of
the 1000-cent product. -/
def poorState : StoreState :=
  runOps [Op.register "widget" 1000 5 "general", Op.topup "alice" 500]

/-- Witness for C6: the insufficient-funds iff at the concrete short-funds
state. -/
theorem claim_C6_witness :
    ((buy_logic ⟨"alice", "p", 2⟩ (some "k9") poorState).1 =
        .error ⟨402, "insufficient_funds"⟩) ↔
      (dget poorState.wallets "alice").getD 0 < 1000 * 2 :=
  (((((claim_C6_buy_error_taxonomy ⟨"alice", "p", 2⟩ (some "k9") poorState
        (fun t ht => by cases ht; rfl)).2.1 "k9" rfl
      (by decide)).2 (by decide)).2
      { id := "p", name := "widget", price_cents := 1000, quantity := 5,
        category := "general" } rfl).2 (by decide)).1

end ApiStore
